import Mathlib

/-!
# ini-parser: a shallow embedding of `ini_parser.c` / `ini_parser.h`

Conventions of the embedding.

* A C string is a `List Char`: the characters before the terminating NUL.  A C
  `char` is the Lean character with the same code (codes 1..255 occur in text).
  `char` is signed, as on the x86 ABIs this code is written for, so a character
  with code 128..255 has a negative `int` value (`schar`).  Statements range
  over all lists; the C strings and text files are the NUL-free ones.
* The file is read with POSIX semantics (no translation of line ends); `fgets`
  and `strtok` follow the C standard.
* `strcmp(a, b) == 0` is equality of the two lists.
* A pointer into a buffer is the list of characters from that position on;
  writing a NUL into the buffer cuts the list there.
* An `ini_entry` chain (`next` pointers) is a `List ini_entry`, head first; the
  bucket array `entries[INI_HASH_TABLE_SIZE]` is a function on `Fin 64`.
* An access `entries[i]` with `i` outside `0..63` is undefined behaviour: the
  operation yields `none`.
* Memory allocation (`malloc`, `calloc`, `strdup`) succeeds.
* The read loop is embedded twice.  In `ini_grow_buffer`, `ini_parse_loop` and
  `ini_parse` the `int line` and the `static int bufferSize` are unbounded
  numbers and `realloc` succeeds: this is the program on files of fewer than
  2^31 lines whose lines are shorter than 2^30 characters.  In
  `Machine.ini_grow_buffer`, `Machine.ini_parse_loop` and `Machine.ini_parse`
  the two counters are 32-bit `int`s and `realloc` may fail.  The two agree
  within those bounds (`machine_parse_eq`).
* The `int` hash sum wraps modulo 2^32.
-/

namespace IniParser

/-! ## Constants of `ini_parser.h` and `ini_parser.c` -/

def INI_BUFFER_LENGTH : Nat := 256
def INI_HASH_TABLE_SIZE : Int := 64
def INI_COMMENT_PREFIX : List Char := [';', '#']
def INI_SECTION_PREFIX : Char := '['
def INI_SECTION_POSTFIX : Char := ']'
def INI_PARAMETER_DELIMITER : List Char := ['=']
def INI_STRIP_CHARS : List Char := [' ', '\t', '\n']
def INI_STRIP_CHARS_LEN : Nat := 3
def INI_COMMENT_PREFIX_LEN : Nat := 2

/-! `enum ini_error_code` -/

def INI_MISSING_FILE : Int := -2
def INI_NO_ERROR : Int := -1
def INI_ERROR_SECTION_START_ID : Int := 0
def INI_ERROR_SECTION_END_ID : Int := 1
def INI_ERROR_SECTION_EMPTY : Int := 2
def INI_ERROR_KEY_EMPTY : Int := 3
def INI_ERROR_VALUE_EMPTY : Int := 4

/-! `enum ini_field_type` -/

def INI_FIELD_INTEGER : Int := 0
def INI_FIELD_INT64 : Int := 1
def INI_FIELD_FLOAT : Int := 2
def INI_FIELD_DOUBLE : Int := 3
def INI_FIELD_BYTE : Int := 4
def INI_FIELD_CHAR : Int := 5
def INI_FIELD_CSTRING : Int := 6
def INI_FIELD_UINT32 : Int := 7
def INI_FIELD_UINT64 : Int := 8
def INI_FIELD_BOOL : Int := 9

inductive parse_type_t where
  | PARSE_DATA
  | PARSE_HANDLER
  deriving DecidableEq, Repr

/-- Reduction of an integer to the range of a 32-bit `int`. -/
def wrapInt32 (x : Int) : Int := (x + 2147483648) % 4294967296 - 2147483648

/-- The `int` value of a (signed) `char`. -/
def schar (c : Char) : Int :=
  if c.toNat % 256 < 128 then ((c.toNat % 256 : Nat) : Int) else ((c.toNat % 256 : Nat) : Int) - 256

/-- The conversion `(char)` of an integer in 0..255. -/
def schar8 (x : Int) : Int := if x < 128 then x else x - 256

/-! ## Hash table -/

/-- `struct ini_entry` without its `next` link. -/
structure ini_entry where
  key : List Char
  value : List Char
  «section» : List Char
  deriving DecidableEq, Repr

/-- `struct ini_data`: 64 bucket chains. -/
structure ini_data where
  entries : Fin 64 → List ini_entry

/-- The result of `memset(data, 0, sizeof(struct ini_data))`. -/
def ini_data.zero : ini_data := ⟨fun _ => []⟩

/-- `ini_get_hash`: the sum of the first `length` characters as an `int`. -/
def ini_get_hash (str : List Char) (length : Nat) : Int :=
  (str.take length).foldl (fun hash c => wrapInt32 (hash + schar c)) 0

/-- The expression `ini_get_hash(key, strlen(key)) % INI_HASH_TABLE_SIZE`; C's `%`
truncates towards zero. -/
def ini_bucket (key : List Char) : Int :=
  Int.tmod (ini_get_hash key key.length) INI_HASH_TABLE_SIZE

/-- `ini_add_entry`: link `entry` at the head of its bucket chain.  The entry
comes from `calloc`, so its `next` is `NULL` when the bucket was empty: both
branches of the `if (ent)` put `entry` in front of the old chain. -/
def ini_add_entry (data : ini_data) (entry : ini_entry) : Option ini_data :=
  let element := ini_bucket entry.key
  if 0 ≤ element ∧ element < INI_HASH_TABLE_SIZE then
    let i : Fin 64 := Fin.ofNat element.toNat
    let ent := data.entries i
    some ⟨fun j => if j = i then entry :: ent else data.entries j⟩
  else
    none

/-! ## Text utilities -/

/-- `ini_contains_chars`: is `ch` among the first `length` characters of `chars`? -/
def ini_contains_chars (ch : Char) (chars : List Char) (length : Nat) : Bool :=
  (chars.take length).any (fun x => x == ch)

/-- `ini_lstrip`: the position of the first character that is not a strip character. -/
def ini_lstrip (str : List Char) : List Char :=
  str.dropWhile (fun c => ini_contains_chars c INI_STRIP_CHARS INI_STRIP_CHARS_LEN)

/-- `ini_rstrip`: overwrite the trailing run of strip characters with NUL. -/
def ini_rstrip (str : List Char) : List Char :=
  (str.reverse.dropWhile (fun c => ini_contains_chars c INI_STRIP_CHARS INI_STRIP_CHARS_LEN)).reverse

/-- `ini_strip`. -/
def ini_strip (str : List Char) : List Char :=
  let result := ini_lstrip str
  ini_rstrip result

/-- `ini_remove_comment`: put a NUL at the first comment character. -/
def ini_remove_comment (str : List Char) : List Char :=
  str.takeWhile (fun c => !ini_contains_chars c INI_COMMENT_PREFIX INI_COMMENT_PREFIX_LEN)

/-- The C library's `strtok(str, delim)` from position `str`: leading delimiters
are skipped; the token found, if any (`none` is `NULL`), ends at the next
delimiter, which is overwritten with NUL.  Returned with it is the position
saved for the next call `strtok(NULL, delim)`. -/
def strtok (str : List Char) (delim : List Char) : Option (List Char) × List Char :=
  let start := str.dropWhile (fun c => delim.contains c)
  if start = [] then
    (none, [])
  else
    (some (start.takeWhile (fun c => !delim.contains c)),
     (start.dropWhile (fun c => !delim.contains c)).tail)

/-! ## Diagnostics -/

/-- The static variables of `ini_parser.c`: `s_ini_last_error_code`, `s_last_line`
and the `static int bufferSize` of `ini_parse`. -/
structure Statics where
  s_ini_last_error_code : Int
  s_last_line : Int
  bufferSize : Nat
  deriving DecidableEq, Repr

/-- The state of the statics when the program starts. -/
def Statics.initial : Statics := ⟨INI_NO_ERROR, -1, INI_BUFFER_LENGTH⟩

/-- `ini_get_last_error`. -/
def ini_get_last_error (g : Statics) : Int := g.s_ini_last_error_code

/-- `ini_get_last_line`. -/
def ini_get_last_line (g : Statics) : Int := g.s_last_line

/-! ## Value coercion -/

/-- The C library conversions called by `ini_read_string`.  They are not part of
this repository and are taken as parameters; a floating-point result is
represented by its bit pattern. -/
structure Libc where
  atol : List Char → Int
  atoll : List Char → Int
  atoi : List Char → Int
  strtof : List Char → Nat
  strtod : List Char → Nat
  strtoul : List Char → Int → Nat
  strtoull : List Char → Int → Nat

/-- The anonymous union of `struct ini_datatype`, as the member last written. -/
inductive ini_union where
  | m_int (v : Int)
  | m_int64 (v : Int)
  | m_float (bits : Nat)
  | m_double (bits : Nat)
  | m_byte (v : Nat)
  | m_char (v : Int)
  | m_pszString (s : List Char)
  | m_uint32 (v : Nat)
  | m_uint64 (v : Nat)
  | m_bool (v : Nat)
  deriving DecidableEq, Repr

/-- `struct ini_datatype`. -/
structure ini_datatype where
  fieldtype : Int
  radix : Int
  u : ini_union
  deriving DecidableEq, Repr

/-- `ini_read_string`: the return value and the datatype after the call. -/
def ini_read_string (libc : Libc) (value : List Char) (datatype : ini_datatype)
    (fieldtype : Int) : Int × ini_datatype :=
  let tag := if fieldtype ≠ -1 then fieldtype else datatype.fieldtype
  if tag = INI_FIELD_INTEGER then
    (1, { datatype with u := .m_int (wrapInt32 (libc.atol value)) })
  else if tag = INI_FIELD_INT64 then
    (1, { datatype with u := .m_int64 (libc.atoll value) })
  else if tag = INI_FIELD_FLOAT then
    (1, { datatype with u := .m_float (libc.strtof value) })
  else if tag = INI_FIELD_DOUBLE then
    (1, { datatype with u := .m_double (libc.strtod value) })
  else if tag = INI_FIELD_BYTE then
    (1, { datatype with u := .m_byte ((libc.atol value % 256).toNat) })
  else if tag = INI_FIELD_CHAR then
    (1, { datatype with u := .m_char (schar8 (libc.atoi value % 256)) })
  else if tag = INI_FIELD_CSTRING then
    (1, { datatype with u := .m_pszString value })
  else if tag = INI_FIELD_UINT32 then
    (1, { datatype with u := .m_uint32 (libc.strtoul value datatype.radix % 4294967296) })
  else if tag = INI_FIELD_UINT64 then
    (1, { datatype with u := .m_uint64 (libc.strtoull value datatype.radix) })
  else if tag = INI_FIELD_BOOL then
    (1, { datatype with u := .m_bool (if value = "false".toList ∨ value = "0".toList then 0 else 1) })
  else
    (0, datatype)

/-- The `while` loop of `ini_read_data`: the value of the first entry of the chain
whose key and section both compare equal; `none` is `NULL`. -/
def ini_find_value («section» key : List Char) : List ini_entry → Option (List Char)
  | [] => none
  | entry :: next =>
    if key = entry.key ∧ «section» = entry.«section» then some entry.value
    else ini_find_value «section» key next

/-- `ini_read_data`: the return value and the datatype after the call; `none` when
the bucket access is out of bounds. -/
def ini_read_data (libc : Libc) (data : ini_data) («section» key : List Char)
    (datatype : ini_datatype) (fieldtype : Int) : Option (Int × ini_datatype) :=
  let element := ini_bucket key
  if 0 ≤ element ∧ element < INI_HASH_TABLE_SIZE then
    match ini_find_value «section» key (data.entries (Fin.ofNat element.toNat)) with
    | none => some (0, datatype)
    | some value => some (ini_read_string libc value datatype fieldtype)
  else
    none

/-! ## The parser -/

/-- One call `handler(pszSection, pszKey, pszValue)`; a `none` section is `NULL`. -/
structure HandlerCall where
  pszSection : Option (List Char)
  pszKey : List Char
  pszValue : List Char
  deriving DecidableEq, Repr

/-- The local variables of `ini_parse` that live across loop iterations, together
with the contents of `*data` (`none` once an out-of-bounds bucket access has
happened) and the calls made to `handler` so far. -/
structure ParseLoop where
  line : Int
  parsingSection : Bool
  pszSection : Option (List Char)
  data : Option ini_data
  calls : List HandlerCall

/-- How one iteration of the read loop ends: it goes on to the next line, or it
returns 0 having stored `code` in `s_ini_last_error_code` and `line` in
`s_last_line`. -/
inductive LineResult where
  | next (st : ParseLoop)
  | fail (code : Int) (st : ParseLoop)

/-- The code at the label `PARSE_SECTION`, on the normalised line `str`. -/
def ini_parse_section (st : ParseLoop) (str : List Char) : LineResult :=
  if str.head? = some INI_SECTION_PREFIX then
    let «end» := str.getLast?
    let str1 := str.tail
    if «end» = some INI_SECTION_POSTFIX then
      let str2 := ini_strip str1.dropLast
      if str2 ≠ [] then
        .next { st with parsingSection := false, pszSection := some str2 }
      else
        .fail INI_ERROR_SECTION_EMPTY st
    else
      .fail INI_ERROR_SECTION_END_ID st
  else
    .fail INI_ERROR_SECTION_START_ID st

/-- The branch of `ini_parse` that splits a parameter line `str` and stores or
reports the entry. -/
def ini_parse_entry (type : parse_type_t) (st : ParseLoop) (str : List Char) : LineResult :=
  match strtok str INI_PARAMETER_DELIMITER with
  | (none, _) => .fail INI_ERROR_KEY_EMPTY st
  | (some key, save) =>
    if key = [] then .fail INI_ERROR_KEY_EMPTY st
    else
      match strtok save INI_PARAMETER_DELIMITER with
      | (none, _) => .fail INI_ERROR_VALUE_EMPTY st
      | (some value, _) =>
        if value = [] then .fail INI_ERROR_VALUE_EMPTY st
        else
          let key := ini_rstrip key
          let value := ini_strip value
          match type with
          | .PARSE_DATA =>
            match st.pszSection with
            | some sec =>
              .next { st with data := Option.bind st.data (fun d => ini_add_entry d ⟨key, value, sec⟩) }
            | none => .next { st with data := none }
          | .PARSE_HANDLER =>
            .next { st with calls := st.calls ++ [⟨st.pszSection, key, value⟩] }

/-- The body of the read loop of `ini_parse` after the line has been read into
the buffer and counted: `buf` is the buffer contents. -/
def ini_parse_line (type : parse_type_t) (st : ParseLoop) (buf : List Char) : LineResult :=
  let str := ini_rstrip (ini_remove_comment (ini_lstrip buf))
  if str = [] then
    .next st
  else if st.parsingSection then
    ini_parse_section st str
  else if str.head? = some INI_SECTION_PREFIX then
    ini_parse_section { st with parsingSection := true } str
  else
    ini_parse_entry type st str

/-- The characters `fgets` stores when it may store at most `k`: it stops after a
newline and at end of file.  Returns them and the rest of the file. -/
def fgets_take : Nat → List Char → List Char × List Char
  | 0, file => ([], file)
  | _ + 1, [] => ([], [])
  | k + 1, c :: file =>
    if c = '\n' then ([c], file)
    else ((c :: (fgets_take k file).1), (fgets_take k file).2)

/-- `fgets(buf, n, file)` on a file whose unread part is `file`: `none` is `NULL`
(nothing read), otherwise the string stored and the unread part left. -/
def fgets (n : Nat) (file : List Char) : Option (List Char × List Char) :=
  if n = 0 then none
  else if n = 1 then some ([], file)
  else if file = [] then none
  else some (fgets_take (n - 1) file)

/-- The loop "Increase buffer size" of `ini_parse`: while the buffer does not end
in a newline and the file is not at its end, double the buffer and read on.
Returns the buffer, the buffer size and the unread part; `none` when the fuel
runs out.  Here `bufferSize` is an unbounded number and `realloc` succeeds;
`Machine.ini_grow_buffer` is the loop with `int bufferSize` and the branch
`if (!realloc_mem)`. -/
def ini_grow_buffer : Nat → List Char → Nat → List Char → Option (List Char × Nat × List Char)
  | 0, _, _, _ => none
  | fuel + 1, buf, bufferSize, file =>
    if buf.getLast? ≠ some '\n' ∧ file ≠ [] then
      match fgets (bufferSize * 2 - buf.length) file with
      | some (more, file1) => ini_grow_buffer fuel (buf ++ more) (bufferSize * 2) file1
      | none => ini_grow_buffer fuel buf (bufferSize * 2) file
    else
      some (buf, bufferSize, file)

/-- The loop "Read line by line" of `ini_parse` on the unread part `file`: how it
ends and the final buffer size; `none` when the fuel runs out.  Here `line` and
`bufferSize` are unbounded numbers and `realloc` succeeds;
`Machine.ini_parse_loop` is the loop with the 32-bit `int`s. -/
def ini_parse_loop (type : parse_type_t) :
    Nat → List Char → Nat → ParseLoop → Option (LineResult × Nat)
  | 0, _, _, _ => none
  | fuel + 1, file, bufferSize, st =>
    match fgets bufferSize file with
    | none => some (.next st, bufferSize)
    | some (buf, file1) =>
      match ini_grow_buffer (file1.length + 1) buf bufferSize file1 with
      | none => none
      | some (buf1, bufferSize1, file2) =>
        match ini_parse_line type { st with line := st.line + 1 } buf1 with
        | .next st1 => ini_parse_loop type fuel file2 bufferSize1 st1
        | .fail code st1 => some (.fail code st1, bufferSize1)

/-- What a call of `ini_parse` leaves behind: its return value, the statics, the
contents of `*data` and the calls made to `handler`. -/
structure ParseOut where
  ret : Int
  statics : Statics
  data : Option ini_data
  calls : List HandlerCall

/-- `ini_parse`.  `file` is the content of the file named `filename`, `none` when
`fopen` fails; `data` is the content of `*data` before the call (not accessed
with `PARSE_HANDLER`).  The result is `none` when a read loop does not
terminate within its fuel.  Here `line` and `bufferSize` are unbounded numbers
and `realloc` succeeds; `Machine.ini_parse` is the function with the 32-bit
`int`s and a `realloc` that may fail. -/
def ini_parse (file : Option (List Char)) (type : parse_type_t) (data : ini_data)
    (g : Statics) : Option ParseOut :=
  match file with
  | some content =>
    let data0 := if type = .PARSE_DATA then ini_data.zero else data
    match ini_parse_loop type (content.length + 1) content g.bufferSize
        ⟨0, true, none, some data0, []⟩ with
    | none => none
    | some (.fail code st, bufferSize) =>
      some ⟨0, ⟨code, st.line, bufferSize⟩, st.data, st.calls⟩
    | some (.next st, bufferSize) =>
      some ⟨1, ⟨INI_NO_ERROR, -1, bufferSize⟩, st.data, st.calls⟩
  | none =>
    some ⟨0, { g with s_ini_last_error_code := INI_MISSING_FILE }, some data, []⟩

/-- `ini_parse_data`. -/
def ini_parse_data (file : Option (List Char)) (data : ini_data) (g : Statics) :
    Option ParseOut :=
  ini_parse file .PARSE_DATA data g

/-- `ini_parse_handler`; the `NULL` passed for `data` is never dereferenced, an
empty table stands for it. -/
def ini_parse_handler (file : Option (List Char)) (g : Statics) : Option ParseOut :=
  ini_parse file .PARSE_HANDLER ini_data.zero g


/-! ## Notions used to state the properties -/

/-- Consecutive calls of `ini_add_entry`, in list order, starting from `data`. -/
def ini_add_entries (data : ini_data) : List ini_entry → Option ini_data
  | [] => some data
  | e :: es => (ini_add_entry data e).bind (fun d => ini_add_entries d es)

/-- The bucket index computed for `key` lies inside the bucket array. -/
def bucket_ok (key : List Char) : Prop :=
  0 ≤ ini_bucket key ∧ ini_bucket key < INI_HASH_TABLE_SIZE

instance (key : List Char) : Decidable (bucket_ok key) := by
  unfold bucket_ok; infer_instance

/-- The bucket of `key` as an index of the array. -/
def slot (key : List Char) : Fin 64 := Fin.ofNat (ini_bucket key).toNat

/-- The physical line at the start of `file`, up to and including its newline (or
up to the end of the file), and the rest of the file. -/
def first_line : List Char → List Char × List Char
  | [] => ([], [])
  | c :: cs => if c = '\n' then ([c], cs) else (c :: (first_line cs).1, (first_line cs).2)

/-- The physical lines of a file, each with its newline when it has one. -/
def phys_lines : List Char → List (List Char)
  | [] => []
  | c :: cs =>
    if c = '\n' then [c] :: phys_lines cs
    else
      match phys_lines cs with
      | [] => [[c]]
      | l :: ls => (c :: l) :: ls

/-- The loop body of `ini_parse` iterated over lines already read: every line is
counted, then handled by `ini_parse_line`; the first failure ends the run. -/
def run_lines (type : parse_type_t) : ParseLoop → List (List Char) → LineResult
  | st, [] => .next st
  | st, buf :: rest =>
    match ini_parse_line type { st with line := st.line + 1 } buf with
    | .next st1 => run_lines type st1 rest
    | .fail code st1 => .fail code st1

/-- The locals of `ini_parse` when the read loop is entered. -/
def ParseLoop.start (type : parse_type_t) (data : ini_data) : ParseLoop :=
  ⟨0, true, none, some (if type = .PARSE_DATA then ini_data.zero else data), []⟩

/-- What `ini_parse` leaves behind when its read loop ends as `r` with buffer size
`bufferSize`. -/
def ParseOut.of (r : LineResult) (bufferSize : Nat) : ParseOut :=
  match r with
  | .fail code st => ⟨0, ⟨code, st.line, bufferSize⟩, st.data, st.calls⟩
  | .next st => ⟨1, ⟨INI_NO_ERROR, -1, bufferSize⟩, st.data, st.calls⟩

/-- The line as the parser looks at it: the buffer after `ini_lstrip`,
`ini_remove_comment` and `ini_rstrip`. -/
def normalised (buf : List Char) : List Char :=
  ini_rstrip (ini_remove_comment (ini_lstrip buf))

/-- Line `n` (counted from 1) is the first offending line of the file `content`
parsed with `type`, and `code` is its error kind: the lines before it are
handled without failure and the loop body fails on it with `code`. -/
def first_offending_line (type : parse_type_t) (data : ini_data) (content : List Char)
    (n : Nat) (code : Int) : Prop :=
  ∃ m st st1 buf, n = m + 1 ∧ (phys_lines content)[m]? = some buf ∧
    run_lines type (ParseLoop.start type data) ((phys_lines content).take m) = .next st ∧
    ini_parse_line type { st with line := st.line + 1 } buf = .fail code st1

/-- `ini_parse_data` on a file followed by `ini_read_data` with the C-string tag
on the table it filled (`none`: a bucket access was out of bounds). -/
def parse_then_read (libc : Libc) (content : List Char) («section» key : List Char) :
    Option (Int × ini_datatype) :=
  (ini_parse_data (some content) ini_data.zero Statics.initial).bind fun out =>
    out.data.bind fun d =>
      ini_read_data libc d «section» key ⟨INI_FIELD_CSTRING, 0, .m_int 0⟩ INI_FIELD_CSTRING

/-- The observable outcome of a parse: return value, statics and handler calls. -/
def ParseOut.summary (out : ParseOut) : Int × Statics × List HandlerCall :=
  (out.ret, out.statics, out.calls)

/-- The state a line result carries. -/
def LineResult.st : LineResult → ParseLoop
  | .next st => st
  | .fail _ st => st

/-- Membership in `INI_STRIP_CHARS`, as tested by the strip functions. -/
def strip_char (c : Char) : Bool := ini_contains_chars c INI_STRIP_CHARS INI_STRIP_CHARS_LEN

/-- Membership in `INI_COMMENT_PREFIX`, as tested by `ini_remove_comment`. -/
def comment_char (c : Char) : Bool :=
  ini_contains_chars c INI_COMMENT_PREFIX INI_COMMENT_PREFIX_LEN

/-- A run of strip characters, then nothing or a comment. -/
def comment_tail (y : List Char) : Prop :=
  ∃ ws z, y = ws ++ z ∧ (∀ x ∈ ws, strip_char x = true) ∧
    (z = [] ∨ ∃ c t, z = c :: t ∧ comment_char c = true)

/-! ## The file grammar of the specification -/

/-- The value written last in `es` for the pair `(section, key)`. -/
def last_value («section» key : List Char) (es : List ini_entry) : Option (List Char) :=
  ((es.filter (fun e => e.key = key ∧ e.«section» = «section»)).getLast?).map (fun e => e.value)

/-- Where an accepted entry goes at the end of the parameter branch of
`ini_parse`: into the table with `PARSE_DATA`, to the handler with
`PARSE_HANDLER`. -/
def dispatch_entry (type : parse_type_t) (st : ParseLoop) (key value : List Char) : LineResult :=
  match type with
  | .PARSE_DATA =>
    match st.pszSection with
    | some sec =>
      .next { st with data := Option.bind st.data (fun d => ini_add_entry d ⟨key, value, sec⟩) }
    | none => .next { st with data := none }
  | .PARSE_HANDLER =>
    .next { st with calls := st.calls ++ [⟨st.pszSection, key, value⟩] }

/-- A C library whose conversions all return 0, for examples in which no
conversion result is looked at. -/
def Libc.zero : Libc :=
  ⟨fun _ => 0, fun _ => 0, fun _ => 0, fun _ => 0, fun _ => 0, fun _ _ => 0, fun _ _ => 0⟩

/-- The tag `ini_read_string` switches on: the `fieldtype` argument unless it is
-1, then the tag stored in the datatype. -/
def effective_tag (datatype : ini_datatype) (fieldtype : Int) : Int :=
  if fieldtype ≠ -1 then fieldtype else datatype.fieldtype

/-! ## Decimal numerals, as the C standard reads them -/

/-- `isspace` in the "C" locale: space, form feed, newline, carriage return,
horizontal tab, vertical tab. -/
def isspace (c : Char) : Bool :=
  [' ', '\x0c', '\n', '\r', '\t', '\x0b'].contains c

/-- `isdigit`. -/
def isdigit (c : Char) : Bool := decide (48 ≤ c.toNat ∧ c.toNat ≤ 57)

/-- The value of a run of decimal digits. -/
def digits_value (ds : List Char) : Int :=
  ds.foldl (fun acc d => acc * 10 + ((d.toNat : Int) - 48)) 0

/-- The value of the longest leading optionally-signed base-10 numeral of `v`
after leading white space, 0 when `v` has none.  By the C standard this is what
`atol(v)` and `atoi(v)` return when the value is representable in their result
type. -/
def leading_numeral (v : List Char) : Int :=
  match v.dropWhile isspace with
  | '-' :: r => - digits_value (r.takeWhile isdigit)
  | '+' :: r => digits_value (r.takeWhile isdigit)
  | s => digits_value (s.takeWhile isdigit)

/-- A C library whose `atol`, `atoll` and `atoi` return the value of the leading
numeral (results of unbounded size); the other conversions return 0. -/
def Libc.decimal : Libc :=
  ⟨leading_numeral, leading_numeral, leading_numeral, fun _ => 0, fun _ => 0, fun _ _ => 0,
    fun _ _ => 0⟩

/-- The read loop of `ini_parse` with a reader of unbounded buffer: the loop body
runs on the whole physical lines of the file, one after the other. -/
def ini_parse_unbounded (content : List Char) (type : parse_type_t) (data : ini_data) :
    LineResult :=
  run_lines type (ParseLoop.start type data) (phys_lines content)

/-- For every line that is neither blank nor a section line, in file order, the
stripped name of the closest section line above it (`cur` at the start; `none`
when there is no section line above). -/
def nearest_sections (cur : Option (List Char)) : List (List Char) → List (Option (List Char))
  | [] => []
  | buf :: rest =>
    if normalised buf = [] then nearest_sections cur rest
    else if (normalised buf).head? = some '[' then
      nearest_sections (some (ini_strip (normalised buf).tail.dropLast)) rest
    else cur :: nearest_sections cur rest

/-- The handler call that reports the entry `e`. -/
def ini_entry.call (e : ini_entry) : HandlerCall := ⟨some e.«section», e.key, e.value⟩

/-! ## Notions for comparing the two parse modes -/

/-- The split of a parameter line `str` in the parameter branch of `ini_parse`:
the key and the value handed to the table or to the handler (both `strtok`
tokens are non-empty; the key is right-stripped, the value stripped), `none`
when the branch returns 0. -/
def split_entry (str : List Char) : Option (List Char × List Char) :=
  match strtok str INI_PARAMETER_DELIMITER with
  | (none, _) => none
  | (some key, save) =>
    if key = [] then none
    else
      match strtok save INI_PARAMETER_DELIMITER with
      | (none, _) => none
      | (some value, _) =>
        if value = [] then none else some (ini_rstrip key, ini_strip value)

/-- The error code of the parameter branch on a line that `split_entry` rejects:
`INI_ERROR_KEY_EMPTY` when the first `strtok` yields no key text,
`INI_ERROR_VALUE_EMPTY` otherwise. -/
def split_error (str : List Char) : Int :=
  match strtok str INI_PARAMETER_DELIMITER with
  | (none, _) => INI_ERROR_KEY_EMPTY
  | (some key, _) => if key = [] then INI_ERROR_KEY_EMPTY else INI_ERROR_VALUE_EMPTY

/-- An entry line: after normalisation the line is not empty and does not start
with `[`, so with entries expected it goes to the parameter branch. -/
def is_entry_line (buf : List Char) : Bool :=
  decide (normalised buf ≠ []) && decide ((normalised buf).head? ≠ some INI_SECTION_PREFIX)

/-- One handler call per entry line of `lines` that `split_entry` accepts, in
order, each with the stripped name of the closest section line above it (`cur`
at the start). -/
def entry_calls (cur : Option (List Char)) : List (List Char) → List HandlerCall
  | [] => []
  | buf :: rest =>
    if normalised buf = [] then entry_calls cur rest
    else if (normalised buf).head? = some INI_SECTION_PREFIX then
      entry_calls (some (ini_strip (normalised buf).tail.dropLast)) rest
    else
      match split_entry (normalised buf) with
      | some (key, value) => ⟨cur, key, value⟩ :: entry_calls cur rest
      | none => entry_calls cur rest

/-- The arguments of handler calls inserted one after the other with
`ini_add_entry`, starting from `data`; a `NULL` section cannot be copied into
an entry. -/
def insert_calls (data : Option ini_data) (calls : List HandlerCall) : Option ini_data :=
  calls.foldl (fun o c => Option.bind o (fun d =>
    Option.bind c.pszSection (fun sec => ini_add_entry d ⟨c.pszKey, c.pszValue, sec⟩))) data

/-- What the loop body leaves of its control state, whatever the mode: the error
code if it failed, the line counter, the section flag and the section name. -/
def LineResult.outline : LineResult → Option Int × Int × Bool × Option (List Char)
  | .next st => (none, st.line, st.parsingSection, st.pszSection)
  | .fail code st => (some code, st.line, st.parsingSection, st.pszSection)

/-- `INT_MAX` of a 32-bit `int`. -/
def INT_MAX : Nat := 2147483647

/-- How the loop "Increase buffer size" ends: with the whole line in the buffer
(`done`: buffer, buffer size, unread part), in the branch `if (!realloc_mem)`
after `bufferSize` has been doubled (`nomem`), or in the signed overflow of
`bufferSize *= 2`, which has no defined behaviour (`overflow`). -/
inductive Machine.Grow where
  | done (buf : List Char) (bufferSize : Nat) (file : List Char)
  | nomem (bufferSize : Nat)
  | overflow

/-- The loop "Increase buffer size" of `ini_parse` with `int bufferSize`: while
the buffer does not end in a newline and the file is not at its end, double
`bufferSize`, `realloc` the buffer and read on.  `none` when the fuel runs
out. -/
def Machine.ini_grow_buffer (realloc : Nat → Bool) :
    Nat → List Char → Nat → List Char → Option Machine.Grow
  | 0, _, _, _ => none
  | fuel + 1, buf, bufferSize, file =>
    if buf.getLast? ≠ some '\n' ∧ file ≠ [] then
      if INT_MAX < bufferSize * 2 then some .overflow
      else if realloc (bufferSize * 2) = false then some (.nomem (bufferSize * 2))
      else
        match fgets (bufferSize * 2 - buf.length) file with
        | some (more, file1) =>
          Machine.ini_grow_buffer realloc fuel (buf ++ more) (bufferSize * 2) file1
        | none => Machine.ini_grow_buffer realloc fuel buf (bufferSize * 2) file
    else
      some (.done buf bufferSize file)

/-- How the loop "Read line by line" ends: as the loop body says (`ended`, with
the final buffer size), in the branch `if (!realloc_mem)`, which closes the file
and returns 0 (`nomem`: the locals and the doubled buffer size), or in a signed
overflow of `bufferSize *= 2` or `++line` (`overflow`). -/
inductive Machine.Loop where
  | ended (r : LineResult) (bufferSize : Nat)
  | nomem (st : ParseLoop) (bufferSize : Nat)
  | overflow

/-- The loop "Read line by line" of `ini_parse` with `int bufferSize` and
`int line`.  `none` when the fuel runs out. -/
def Machine.ini_parse_loop (realloc : Nat → Bool) (type : parse_type_t) :
    Nat → List Char → Nat → ParseLoop → Option Machine.Loop
  | 0, _, _, _ => none
  | fuel + 1, file, bufferSize, st =>
    match fgets bufferSize file with
    | none => some (.ended (.next st) bufferSize)
    | some (buf, file1) =>
      match Machine.ini_grow_buffer realloc (file1.length + 1) buf bufferSize file1 with
      | none => none
      | some .overflow => some .overflow
      | some (.nomem bufferSize1) => some (.nomem st bufferSize1)
      | some (.done buf1 bufferSize1 file2) =>
        if (INT_MAX : Int) < st.line + 1 then some .overflow
        else
          match ini_parse_line type { st with line := st.line + 1 } buf1 with
          | .next st1 => Machine.ini_parse_loop realloc type fuel file2 bufferSize1 st1
          | .fail code st1 => some (.ended (.fail code st1) bufferSize1)

/-- What a call of `ini_parse` comes to: it returns and leaves `out` behind, or
its behaviour is not defined. -/
inductive Machine.Outcome where
  | returned (out : ParseOut)
  | undefined

/-- `ini_parse` with `int bufferSize`, `int line` and a `realloc` that may fail.
In the branch `if (!realloc_mem)` it returns 0 and writes neither
`s_ini_last_error_code` nor `s_last_line`.  `none` when a read loop does not
terminate within its fuel. -/
def Machine.ini_parse (realloc : Nat → Bool) (file : Option (List Char)) (type : parse_type_t)
    (data : ini_data) (g : Statics) : Option Machine.Outcome :=
  match file with
  | some content =>
    let data0 := if type = .PARSE_DATA then ini_data.zero else data
    match Machine.ini_parse_loop realloc type (content.length + 1) content g.bufferSize
        ⟨0, true, none, some data0, []⟩ with
    | none => none
    | some (.ended (.fail code st) bufferSize) =>
      some (.returned ⟨0, ⟨code, st.line, bufferSize⟩, st.data, st.calls⟩)
    | some (.ended (.next st) bufferSize) =>
      some (.returned ⟨1, ⟨INI_NO_ERROR, -1, bufferSize⟩, st.data, st.calls⟩)
    | some (.nomem st bufferSize) =>
      some (.returned ⟨0, { g with bufferSize := bufferSize }, st.data, st.calls⟩)
    | some .overflow => some .undefined
  | none =>
    some (.returned ⟨0, { g with s_ini_last_error_code := INI_MISSING_FILE }, some data, []⟩)

/-- The lengths for which the read loop stays within `int`: every physical line
of the file has fewer than 2^30 characters and the file has at most `INT_MAX`
lines. -/
def within_int (content : List Char) : Prop :=
  (∀ l ∈ phys_lines content, l.length < 1073741824) ∧ (phys_lines content).length ≤ INT_MAX

/-- The state at the head of the loop "Increase buffer size" when it goes round
again: the buffer is full and the line it is part of has fewer than 2^30
characters. -/
def grow_inv (buf : List Char) (bs : Nat) (file : List Char) : Prop :=
  buf.getLast? ≠ some '\n' → file ≠ [] →
    buf.length + 1 = bs ∧ buf.length + (first_line file).1.length < 1073741824

/-! # Theorems -/

/-! ## The hash table: lookup after inserts -/

theorem ini_add_entry_ok (d : ini_data) (e : ini_entry) (h : bucket_ok e.key) :
    ini_add_entry d e =
      some ⟨fun j => if j = slot e.key then e :: d.entries (slot e.key) else d.entries j⟩ := by
  unfold ini_add_entry
  simp only [slot]
  exact if_pos h

theorem ini_add_entries_ok (es : List ini_entry) :
    ∀ (d : ini_data), (∀ e ∈ es, bucket_ok e.key) →
      ini_add_entries d es =
        some ⟨fun j => (es.reverse.filter (fun e => slot e.key = j)) ++ d.entries j⟩ := by
  induction es with
  | nil => intro d _; simp [ini_add_entries]
  | cons e es ih =>
    intro d h
    have he : bucket_ok e.key := h e (List.mem_cons_self _ _)
    have hes : ∀ x ∈ es, bucket_ok x.key := fun x hx => h x (List.mem_cons_of_mem _ hx)
    simp only [ini_add_entries, ini_add_entry_ok d e he, Option.some_bind, ih _ hes]
    congr 2
    funext j
    by_cases hj : j = slot e.key
    · subst hj; simp [List.filter_append]
    · have : ¬ slot e.key = j := fun h => hj h.symm
      simp [List.filter_append, hj, this]

theorem ini_find_value_filter (sec key : List Char) (p : ini_entry → Bool)
    (hp : ∀ e, e.key = key → p e = true) (l : List ini_entry) :
    ini_find_value sec key (l.filter p) = ini_find_value sec key l := by
  induction l with
  | nil => rfl
  | cons e l ih =>
    by_cases hpe : p e = true
    · simp only [List.filter_cons_of_pos hpe, ini_find_value, ih]
    · have hk : ¬ key = e.key := fun h => hpe (hp e h.symm)
      simp [List.filter_cons_of_neg hpe, ini_find_value, ih, hk]

/-- Lookup in a table built by inserts whose bucket indices are all in range: the
chain walk finds the most recently inserted entry with that key and section. -/
theorem ini_read_data_after_inserts (libc : Libc) (es : List ini_entry) (sec key : List Char)
    (dt : ini_datatype) (ft : Int)
    (hes : ∀ e ∈ es, bucket_ok e.key) (hk : bucket_ok key) :
    ∃ d, ini_add_entries ini_data.zero es = some d ∧
      ini_read_data libc d sec key dt ft =
        match ini_find_value sec key es.reverse with
        | none => some (0, dt)
        | some value => some (ini_read_string libc value dt ft) := by
  refine ⟨_, ini_add_entries_ok es _ hes, ?_⟩
  unfold ini_read_data
  simp only []
  rw [if_pos (show 0 ≤ ini_bucket key ∧ ini_bucket key < INI_HASH_TABLE_SIZE from hk)]
  have : ini_find_value sec key
      ((es.reverse.filter (fun e => slot e.key = Fin.ofNat (ini_bucket key).toNat)) ++
        ini_data.zero.entries (Fin.ofNat (ini_bucket key).toNat))
      = ini_find_value sec key es.reverse := by
    simp only [ini_data.zero, List.append_nil]
    apply ini_find_value_filter
    intro e he
    simp [slot, he]
  simp only [] at this ⊢
  rw [this]

/-! ## Reading lines -/

theorem first_line_append (file : List Char) :
    (first_line file).1 ++ (first_line file).2 = file := by
  induction file with
  | nil => rfl
  | cons c cs ih =>
    unfold first_line
    split
    · rfl
    · simp [ih]

theorem first_line_ne_nil (file : List Char) (h : file ≠ []) : (first_line file).1 ≠ [] := by
  cases file with
  | nil => exact absurd rfl h
  | cons c cs => unfold first_line; split <;> simp

theorem first_line_length_lt (file : List Char) (h : file ≠ []) :
    (first_line file).2.length < file.length := by
  have h1 := congrArg List.length (first_line_append file)
  have h2 := List.length_pos.mpr (first_line_ne_nil file h)
  rw [List.length_append] at h1
  omega

theorem phys_lines_eq (file : List Char) (h : file ≠ []) :
    phys_lines file = (first_line file).1 :: phys_lines (first_line file).2 := by
  induction file with
  | nil => exact absurd rfl h
  | cons c cs ih =>
    by_cases hc : c = '\n'
    · simp [phys_lines, first_line, hc]
    · by_cases hcs : cs = []
      · subst hcs; simp [phys_lines, first_line, hc]
      · simp only [phys_lines, first_line, hc, if_false]
        rw [ih hcs]

theorem getLast?_cons_of_ne {c x : Char} (a : List Char) (h : c ≠ x) :
    (c :: a).getLast? = some x ↔ a.getLast? = some x := by
  cases a with
  | nil => simp [h]
  | cons d a => simp [List.getLast?_cons_cons]

theorem fgets_take_append (k : Nat) : ∀ file : List Char,
    (fgets_take k file).1 ++ (fgets_take k file).2 = file := by
  induction k with
  | zero => intro file; simp [fgets_take]
  | succ k ih =>
    intro file
    cases file with
    | nil => simp [fgets_take]
    | cons c cs =>
      unfold fgets_take
      split
      · rfl
      · simp [ih cs]

theorem fgets_take_length_le (k : Nat) : ∀ file : List Char,
    (fgets_take k file).1.length ≤ k := by
  induction k with
  | zero => intro file; simp [fgets_take]
  | succ k ih =>
    intro file
    cases file with
    | nil => simp [fgets_take]
    | cons c cs =>
      unfold fgets_take
      split
      · simp
      · simp [ih cs]

theorem fgets_take_ne_nil (k : Nat) (file : List Char) (hk : 1 ≤ k) (h : file ≠ []) :
    (fgets_take k file).1 ≠ [] := by
  obtain ⟨k, rfl⟩ : ∃ j, k = j + 1 := ⟨k - 1, by omega⟩
  cases file with
  | nil => exact absurd rfl h
  | cons c cs => unfold fgets_take; split <;> simp

theorem fgets_take_newline (k : Nat) : ∀ file : List Char,
    (fgets_take k file).1.getLast? = some '\n' → fgets_take k file = first_line file := by
  induction k with
  | zero => intro file h; simp [fgets_take] at h
  | succ k ih =>
    intro file h
    cases file with
    | nil => simp [fgets_take] at h
    | cons c cs =>
      by_cases hc : c = '\n'
      · simp [fgets_take, first_line, hc]
      · simp only [fgets_take, first_line, hc, if_false] at h ⊢
        rw [getLast?_cons_of_ne _ hc] at h
        rw [ih cs h]

theorem fgets_take_no_newline (k : Nat) : ∀ file : List Char,
    (fgets_take k file).1.getLast? ≠ some '\n' →
      first_line file = ((fgets_take k file).1 ++ (first_line (fgets_take k file).2).1,
        (first_line (fgets_take k file).2).2) := by
  induction k with
  | zero => intro file _; simp [fgets_take]
  | succ k ih =>
    intro file h
    cases file with
    | nil => simp [fgets_take, first_line]
    | cons c cs =>
      by_cases hc : c = '\n'
      · exfalso; apply h; simp [fgets_take, hc]
      · have h' : (fgets_take k cs).1.getLast? ≠ some '\n' := by
          intro h2
          apply h
          simp only [fgets_take, hc, if_false]
          exact (getLast?_cons_of_ne _ hc).mpr h2
        have := ih cs h'
        simp only [fgets_take, hc, if_false]
        conv_lhs => rw [first_line]
        simp only [hc, if_false]
        rw [this]
        simp

theorem fgets_eq (n : Nat) (file : List Char) (hn : 2 ≤ n) (h : file ≠ []) :
    fgets n file = some (fgets_take (n - 1) file) := by
  unfold fgets
  rw [if_neg (by omega), if_neg (by omega), if_neg h]

theorem ini_grow_buffer_done (fuel : Nat) (buf : List Char) (bs : Nat) (file : List Char)
    (h : buf.getLast? = some '\n' ∨ file = []) :
    ini_grow_buffer (fuel + 1) buf bs file = some (buf, bs, file) := by
  unfold ini_grow_buffer
  rw [if_neg]
  rintro ⟨h1, h2⟩
  rcases h with h | h
  · exact h1 h
  · exact h2 h

theorem ini_grow_buffer_spec : ∀ (fuel : Nat) (buf : List Char) (bs : Nat) (file : List Char),
    file.length < fuel → buf.length < bs → buf.getLast? ≠ some '\n' →
    ∃ bs', bs ≤ bs' ∧ ini_grow_buffer fuel buf bs file =
      some (buf ++ (first_line file).1, bs', (first_line file).2) := by
  intro fuel
  induction fuel with
  | zero => intro buf bs file h; omega
  | succ fuel ih =>
    intro buf bs file hf hb hl
    by_cases hfile : file = []
    · subst hfile
      exact ⟨bs, le_refl _, by rw [ini_grow_buffer_done _ _ _ _ (Or.inr rfl)]; simp [first_line]⟩
    · have hn : 2 ≤ bs * 2 - buf.length := by omega
      have hk : 1 ≤ bs * 2 - buf.length - 1 := by omega
      have hne := fgets_take_ne_nil _ file hk hfile
      have hlen := fgets_take_length_le (bs * 2 - buf.length - 1) file
      have happ := congrArg List.length (fgets_take_append (bs * 2 - buf.length - 1) file)
      rw [List.length_append] at happ
      have hpos := List.length_pos.mpr hne
      unfold ini_grow_buffer
      rw [if_pos ⟨hl, hfile⟩, fgets_eq _ _ hn hfile]
      simp only []
      by_cases hnl : (fgets_take (bs * 2 - buf.length - 1) file).1.getLast? = some '\n'
      · have hfl := fgets_take_newline _ _ hnl
        obtain ⟨fuel', rfl⟩ : ∃ j, fuel = j + 1 := ⟨fuel - 1, by omega⟩
        refine ⟨bs * 2, by omega, ?_⟩
        rw [ini_grow_buffer_done]
        · rw [← hfl]
        · left
          rw [List.getLast?_append_of_ne_nil _ hne]
          exact hnl
      · have hfl := fgets_take_no_newline _ _ hnl
        have hl' : (buf ++ (fgets_take (bs * 2 - buf.length - 1) file).1).getLast? ≠ some '\n' := by
          rw [List.getLast?_append_of_ne_nil _ hne]
          exact hnl
        obtain ⟨bs', hbs', h⟩ := ih (buf ++ (fgets_take (bs * 2 - buf.length - 1) file).1) (bs * 2)
          (fgets_take (bs * 2 - buf.length - 1) file).2 (by omega)
          (by rw [List.length_append]; omega) hl'
        refine ⟨bs', by omega, ?_⟩
        rw [h, hfl]
        simp

/-- Reading one line: `fgets` followed by the buffer-growing loop hands over the
whole first physical line of the unread part. -/
theorem read_line_spec (bs : Nat) (file : List Char) (hbs : 2 ≤ bs) (h : file ≠ []) :
    ∃ buf file1 bs', bs ≤ bs' ∧ fgets bs file = some (buf, file1) ∧
      ini_grow_buffer (file1.length + 1) buf bs file1 =
        some ((first_line file).1, bs', (first_line file).2) := by
  have hne := fgets_take_ne_nil (bs - 1) file (by omega) h
  have hlen := fgets_take_length_le (bs - 1) file
  refine ⟨(fgets_take (bs - 1) file).1, (fgets_take (bs - 1) file).2, ?_⟩
  by_cases hnl : (fgets_take (bs - 1) file).1.getLast? = some '\n'
  · refine ⟨bs, le_refl _, fgets_eq _ _ hbs h, ?_⟩
    rw [ini_grow_buffer_done _ _ _ _ (Or.inl hnl), ← fgets_take_newline _ _ hnl]
  · obtain ⟨bs', hbs', hg⟩ := ini_grow_buffer_spec ((fgets_take (bs - 1) file).2.length + 1)
      (fgets_take (bs - 1) file).1 bs (fgets_take (bs - 1) file).2 (by omega) (by omega) hnl
    refine ⟨bs', hbs', fgets_eq _ _ hbs h, ?_⟩
    rw [hg, fgets_take_no_newline _ _ hnl]

theorem ini_parse_loop_spec (type : parse_type_t) : ∀ (fuel : Nat) (file : List Char) (bs : Nat)
    (st : ParseLoop), file.length < fuel → 2 ≤ bs →
    ∃ bs', bs ≤ bs' ∧
      ini_parse_loop type fuel file bs st = some (run_lines type st (phys_lines file), bs') := by
  intro fuel
  induction fuel with
  | zero => intro file bs st h; omega
  | succ fuel ih =>
    intro file bs st hf hbs
    by_cases hfile : file = []
    · subst hfile
      refine ⟨bs, le_refl _, ?_⟩
      have : fgets bs [] = none := by
        unfold fgets; rw [if_neg (by omega), if_neg (by omega), if_pos rfl]
      simp [ini_parse_loop, this, phys_lines, run_lines]
    · obtain ⟨buf, file1, bs1, hbs1, hfg, hgrow⟩ := read_line_spec bs file hbs hfile
      have hlt := first_line_length_lt file hfile
      rw [phys_lines_eq file hfile]
      unfold ini_parse_loop run_lines
      simp only [hfg, hgrow]
      cases hline : ini_parse_line type { st with line := st.line + 1 } (first_line file).1 with
      | next st1 =>
        obtain ⟨bs', hbs', h⟩ := ih (first_line file).2 bs1 st1 (by omega) (by omega)
        exact ⟨bs', by omega, by simpa using h⟩
      | fail code st1 => exact ⟨bs1, hbs1, rfl⟩

/-- `ini_parse` on an existing file, through the lines of the file. -/
theorem ini_parse_some (content : List Char) (type : parse_type_t) (data : ini_data)
    (g : Statics) (hbs : 2 ≤ g.bufferSize) :
    ∃ bs', g.bufferSize ≤ bs' ∧ ini_parse (some content) type data g =
      some (ParseOut.of (run_lines type (ParseLoop.start type data) (phys_lines content)) bs') := by
  obtain ⟨bs', hbs', h⟩ := ini_parse_loop_spec type (content.length + 1) content g.bufferSize
    (ParseLoop.start type data) (by omega) hbs
  refine ⟨bs', hbs', ?_⟩
  unfold ini_parse
  simp only [ParseLoop.start] at h ⊢
  rw [h]
  generalize run_lines type _ _ = r
  cases r <;> rfl

/-! ## The loop body over lines -/

theorem ini_parse_section_st_line (st : ParseLoop) (str : List Char) :
    (ini_parse_section st str).st.line = st.line := by
  unfold ini_parse_section
  simp only []
  split_ifs <;> rfl

theorem ini_parse_entry_st_line (type : parse_type_t) (st : ParseLoop) (str : List Char) :
    (ini_parse_entry type st str).st.line = st.line := by
  unfold ini_parse_entry
  split
  · rfl
  · split_ifs
    · rfl
    · split
      · rfl
      · split_ifs
        · rfl
        · split
          · split <;> rfl
          · rfl

theorem ini_parse_line_st_line (type : parse_type_t) (st : ParseLoop) (buf : List Char) :
    (ini_parse_line type st buf).st.line = st.line := by
  unfold ini_parse_line
  simp only []
  split_ifs
  · rfl
  · exact ini_parse_section_st_line _ _
  · exact ini_parse_section_st_line _ _
  · exact ini_parse_entry_st_line _ _ _

theorem run_lines_fail_iff (type : parse_type_t) (ls : List (List Char)) :
    ∀ (st st1 : ParseLoop) (code : Int), run_lines type st ls = .fail code st1 ↔
      ∃ m st0 buf, ls[m]? = some buf ∧ run_lines type st (ls.take m) = .next st0 ∧
        ini_parse_line type { st0 with line := st0.line + 1 } buf = .fail code st1 := by
  induction ls with
  | nil =>
    intro st st1 code
    simp [run_lines]
  | cons b ls ih =>
    intro st st1 code
    constructor
    · intro h
      simp only [run_lines] at h
      cases hb : ini_parse_line type { st with line := st.line + 1 } b with
      | next st2 =>
        rw [hb] at h
        obtain ⟨m, st0, buf, h1, h2, h3⟩ := (ih st2 st1 code).mp h
        refine ⟨m + 1, st0, buf, by simpa using h1, ?_, h3⟩
        simp only [List.take_succ_cons, run_lines, hb]
        exact h2
      | fail c st2 =>
        rw [hb] at h
        cases h
        exact ⟨0, st, b, by simp, rfl, hb⟩
    · rintro ⟨m, st0, buf, h1, h2, h3⟩
      cases m with
      | zero =>
        simp only [List.take_zero, run_lines] at h2
        cases h2
        simp only [List.getElem?_cons_zero] at h1
        cases h1
        simp only [run_lines, h3]
      | succ m =>
        simp only [List.getElem?_cons_succ] at h1
        simp only [List.take_succ_cons, run_lines] at h2
        simp only [run_lines]
        cases hb : ini_parse_line type { st with line := st.line + 1 } b with
        | next st2 =>
          rw [hb] at h2
          exact (ih st2 st1 code).mpr ⟨m, st0, buf, h1, h2, h3⟩
        | fail c st2 => rw [hb] at h2; cases h2

theorem ini_parse_line_def (type : parse_type_t) (st : ParseLoop) (buf : List Char) :
    ini_parse_line type st buf =
      if normalised buf = [] then .next st
      else if st.parsingSection then ini_parse_section st (normalised buf)
      else if (normalised buf).head? = some INI_SECTION_PREFIX then
        ini_parse_section { st with parsingSection := true } (normalised buf)
      else ini_parse_entry type st (normalised buf) := rfl

theorem with_parsingSection_true (st : ParseLoop) (h : st.parsingSection = true) :
    { st with parsingSection := true } = st := by
  cases st
  simp only [ParseLoop.mk.injEq, true_and] at h ⊢
  simp [h]

theorem ini_parse_line_section_branch (type : parse_type_t) (st : ParseLoop) (buf : List Char)
    (hne : normalised buf ≠ [])
    (hbr : st.parsingSection = true ∨ (normalised buf).head? = some INI_SECTION_PREFIX) :
    ini_parse_line type st buf =
      if st.parsingSection = true then ini_parse_section st (normalised buf)
      else ini_parse_section { st with parsingSection := true } (normalised buf) := by
  rw [ini_parse_line_def, if_neg hne]
  by_cases hp : st.parsingSection = true
  · rw [if_pos hp, if_pos hp]
  · rw [if_neg hp, if_neg hp]
    rcases hbr with h | h
    · exact absurd h hp
    · rw [if_pos h]

/-- C5: classification of a non-empty normalised line handled by the section
branch (the parser expects a section, or the line starts with `[`).  It fails
with `INI_ERROR_SECTION_START_ID` if the line does not begin with `[`; otherwise
with `INI_ERROR_SECTION_END_ID` if its last character is not `]`, as for the
one-character line `[`; otherwise the line is `[` inner `]` and it fails with
`INI_ERROR_SECTION_EMPTY` if `inner` strips to nothing; otherwise it succeeds,
the current section is the stripped `inner` and entries are expected next. -/
theorem C5_section_header_classification (type : parse_type_t) (st : ParseLoop)
    (buf : List Char) (hne : normalised buf ≠ [])
    (hbr : st.parsingSection = true ∨ (normalised buf).head? = some INI_SECTION_PREFIX) :
    ((normalised buf).head? ≠ some '[' →
      ini_parse_line type st buf = .fail INI_ERROR_SECTION_START_ID st) ∧
    ((normalised buf).head? = some '[' → (normalised buf).getLast? ≠ some ']' →
      ini_parse_line type st buf =
        .fail INI_ERROR_SECTION_END_ID { st with parsingSection := true }) ∧
    (normalised buf = ['['] →
      ini_parse_line type st buf =
        .fail INI_ERROR_SECTION_END_ID { st with parsingSection := true }) ∧
    ((normalised buf).head? = some '[' → (normalised buf).getLast? = some ']' →
      ∃ inner, normalised buf = '[' :: (inner ++ [']'])) ∧
    (∀ inner, normalised buf = '[' :: (inner ++ [']']) → ini_strip inner = [] →
      ini_parse_line type st buf =
        .fail INI_ERROR_SECTION_EMPTY { st with parsingSection := true }) ∧
    (∀ inner, normalised buf = '[' :: (inner ++ [']']) → ini_strip inner ≠ [] →
      ini_parse_line type st buf =
        .next { st with parsingSection := false, pszSection := some (ini_strip inner) }) := by
  have hline := ini_parse_line_section_branch type st buf hne hbr
  have hsec : ∀ s : ParseLoop, ∀ inner, normalised buf = '[' :: (inner ++ [']']) →
      ini_parse_section s (normalised buf) =
        if ini_strip inner ≠ [] then
          .next { s with parsingSection := false, pszSection := some (ini_strip inner) }
        else .fail INI_ERROR_SECTION_EMPTY s := by
    intro s inner h
    have hl : ('[' :: (inner ++ [']'])).getLast? = some ']' := by
      rw [← List.cons_append, List.getLast?_append_of_ne_nil _ (by simp)]
      rfl
    rw [h]
    unfold ini_parse_section
    simp only [INI_SECTION_PREFIX, INI_SECTION_POSTFIX, List.head?_cons, hl, if_true,
      List.tail_cons, List.dropLast_concat]
  have hend : ∀ s : ParseLoop, (normalised buf).head? = some '[' →
      (normalised buf).getLast? ≠ some ']' →
      ini_parse_section s (normalised buf) = .fail INI_ERROR_SECTION_END_ID s := by
    intro s h1 h2
    unfold ini_parse_section
    simp only [INI_SECTION_PREFIX, INI_SECTION_POSTFIX]
    rw [if_pos h1, if_neg h2]
  refine ⟨?_, ?_, ?_, ?_, ?_, ?_⟩
  · intro h
    have hp : st.parsingSection = true := by
      rcases hbr with h1 | h1
      · exact h1
      · exact absurd h1 h
    rw [hline, if_pos hp]
    unfold ini_parse_section
    simp only [INI_SECTION_PREFIX]
    rw [if_neg h]
  · intro h1 h2
    rw [hline]
    split_ifs with hp
    · rw [hend st h1 h2, with_parsingSection_true st hp]
    · exact hend _ h1 h2
  · intro h
    have h1 : (normalised buf).head? = some '[' := by rw [h]; rfl
    have h2 : (normalised buf).getLast? ≠ some ']' := by rw [h]; decide
    rw [hline]
    split_ifs with hp
    · rw [hend st h1 h2, with_parsingSection_true st hp]
    · exact hend _ h1 h2
  · intro h1 h2
    cases hstr : normalised buf with
    | nil => exact absurd hstr hne
    | cons c t =>
      rw [hstr] at h1 h2
      simp only [List.head?_cons, Option.some.injEq] at h1
      subst h1
      rcases List.eq_nil_or_concat t with ht | ⟨inner, d, ht⟩
      · subst ht
        simp at h2
      · subst ht
        simp only [List.concat_eq_append] at h2 ⊢
        rw [← List.cons_append, List.getLast?_append_of_ne_nil _ (by simp)] at h2
        simp only [List.getLast?_singleton, Option.some.injEq] at h2
        subst h2
        exact ⟨inner, rfl⟩
  · intro inner h1 h2
    rw [hline]
    split_ifs with hp
    · rw [hsec st inner h1, if_neg (not_not.mpr h2), with_parsingSection_true st hp]
    · rw [hsec _ inner h1, if_neg (not_not.mpr h2)]
  · intro inner h1 h2
    rw [hline]
    split_ifs with hp
    · rw [hsec st inner h1, if_pos h2]
    · rw [hsec _ inner h1, if_pos h2]

/-- C5 at the line ` [ general ] # c`, and the files `[section`/`key=val`, `[]`,
`key=val` and `[`, which fail at line 1 with the kinds named in the claim. -/
theorem C5_witness :
    (ini_parse_line .PARSE_DATA (ParseLoop.start .PARSE_DATA ini_data.zero) " [ general ] # c\n".toList =
        .next { ParseLoop.start .PARSE_DATA ini_data.zero with
          parsingSection := false, pszSection := some "general".toList }) ∧
    (ini_parse_handler (some "[section\nkey=val\n".toList) Statics.initial).map ParseOut.summary
        = some (0, ⟨INI_ERROR_SECTION_END_ID, 1, 256⟩, []) ∧
    (ini_parse_handler (some "[]\n".toList) Statics.initial).map ParseOut.summary
        = some (0, ⟨INI_ERROR_SECTION_EMPTY, 1, 256⟩, []) ∧
    (ini_parse_handler (some "key=val".toList) Statics.initial).map ParseOut.summary
        = some (0, ⟨INI_ERROR_SECTION_START_ID, 1, 256⟩, []) ∧
    (ini_parse_handler (some "[".toList) Statics.initial).map ParseOut.summary
        = some (0, ⟨INI_ERROR_SECTION_END_ID, 1, 256⟩, []) :=
  ⟨(C5_section_header_classification .PARSE_DATA (ParseLoop.start .PARSE_DATA ini_data.zero)
      " [ general ] # c\n".toList (by decide) (Or.inl rfl)).2.2.2.2.2 " general ".toList
      (by decide) (by decide),
    by decide, by decide, by decide, by decide⟩

/-! ## Characters and normalisation -/

theorem strip_char_iff (c : Char) : strip_char c = true ↔ c = ' ' ∨ c = '\t' ∨ c = '\n' := by
  have h : strip_char c = (' ' == c || ('\t' == c || '\n' == c)) := by
    simp [strip_char, ini_contains_chars, INI_STRIP_CHARS, INI_STRIP_CHARS_LEN]
  rw [h]
  simp only [Bool.or_eq_true, beq_iff_eq]
  constructor <;> rintro (h | h | h) <;> subst h <;> simp

theorem comment_char_iff (c : Char) : comment_char c = true ↔ c = ';' ∨ c = '#' := by
  have h : comment_char c = (';' == c || '#' == c) := by
    simp [comment_char, ini_contains_chars, INI_COMMENT_PREFIX, INI_COMMENT_PREFIX_LEN]
  rw [h]
  simp only [Bool.or_eq_true, beq_iff_eq]
  constructor <;> rintro (h | h) <;> subst h <;> simp

theorem ini_lstrip_eq (str : List Char) : ini_lstrip str = str.dropWhile strip_char := rfl

theorem ini_rstrip_eq (str : List Char) :
    ini_rstrip str = (str.reverse.dropWhile strip_char).reverse := rfl

theorem ini_remove_comment_eq (str : List Char) :
    ini_remove_comment str = str.takeWhile (fun c => !comment_char c) := rfl

theorem comment_tail_nil : comment_tail [] := ⟨[], [], rfl, by simp, Or.inl rfl⟩

theorem phys_lines_single (l : List Char) (hl : '\n' ∉ l) (hne : l ≠ []) :
    phys_lines l = [l] := by
  induction l with
  | nil => exact absurd rfl hne
  | cons c l ih =>
    have hc : c ≠ '\n' := fun h => hl (h ▸ List.mem_cons_self _ _)
    have hl1 : '\n' ∉ l := fun h => hl (List.mem_cons_of_mem _ h)
    by_cases hl0 : l = []
    · subst hl0; simp [phys_lines, hc]
    · simp only [phys_lines, hc, if_false, ih hl1 hl0]

theorem ParseOut.of_fields (r r1 : LineResult) (bs bs1 : Nat)
    (h : ParseOut.of r 0 = ParseOut.of r1 0) :
    (ParseOut.of r1 bs1).ret = (ParseOut.of r bs).ret ∧
    ini_get_last_error (ParseOut.of r1 bs1).statics = ini_get_last_error (ParseOut.of r bs).statics ∧
    ini_get_last_line (ParseOut.of r1 bs1).statics = ini_get_last_line (ParseOut.of r bs).statics ∧
    (ParseOut.of r1 bs1).data = (ParseOut.of r bs).data ∧
    (ParseOut.of r1 bs1).calls = (ParseOut.of r bs).calls := by
  cases r <;> cases r1 <;>
    simp only [ParseOut.of, ParseOut.mk.injEq, Statics.mk.injEq] at h <;>
    first
    | exact absurd h.1 (by decide)
    | simp [ParseOut.of, ini_get_last_error, ini_get_last_line, h]

/-- C2: the lookup after inserts fails for keys whose bucket index is negative.
The key `é` in UTF-8 (bytes C3 A9) has character sum -148 and bucket index -20:
`ini_add_entry` and `ini_read_data` access `entries[-20]`, outside the table.
For keys in range the claim's own witness holds: after inserting
`(sectionA, k, first)` and `(sectionA, k, second)` the lookup yields `second`. -/
theorem C2_lookup_bucket_out_of_range (libc : Libc) (dt : ini_datatype) :
    ini_bucket "\xc3\xa9".toList = -20 ∧
    (ini_add_entry ini_data.zero ⟨"\xc3\xa9".toList, "v".toList, "s".toList⟩).isNone = true ∧
    ini_read_data libc ini_data.zero "s".toList "\xc3\xa9".toList dt INI_FIELD_CSTRING = none ∧
    (ini_add_entries ini_data.zero
        [⟨"k".toList, "first".toList, "sectionA".toList⟩,
         ⟨"k".toList, "second".toList, "sectionA".toList⟩]).bind
      (fun d => ini_read_data libc d "sectionA".toList "k".toList dt INI_FIELD_CSTRING)
      = some (1, { dt with u := .m_pszString "second".toList }) :=
  ⟨by decide, by decide, by rfl, by rfl⟩

/-- C3: a line with no key text before its first `=` is not reported as
`INI_ERROR_KEY_EMPTY`.  The file `[s]`, `=val` fails at line 2 with
`INI_ERROR_VALUE_EMPTY` in both modes, and the file `[s]`, `=a=b` is accepted:
the handler is called with key `a` and value `b`, and the table answers `b`
for `(s, a)`. -/
theorem C3_empty_key_not_reported (libc : Libc) :
    (ini_parse_data (some "[s]\n=val\n".toList) ini_data.zero Statics.initial).map ParseOut.summary
        = some (0, ⟨INI_ERROR_VALUE_EMPTY, 2, 256⟩, []) ∧
    (ini_parse_handler (some "[s]\n=val\n".toList) Statics.initial).map ParseOut.summary
        = some (0, ⟨INI_ERROR_VALUE_EMPTY, 2, 256⟩, []) ∧
    (ini_parse_handler (some "[s]\n=a=b\n".toList) Statics.initial).map ParseOut.summary
        = some (1, ⟨INI_NO_ERROR, -1, 256⟩, [⟨some "s".toList, "a".toList, "b".toList⟩]) ∧
    parse_then_read libc "[s]\n=a=b\n".toList "s".toList "a".toList
        = some (1, ⟨INI_FIELD_CSTRING, 0, .m_pszString "b".toList⟩) :=
  ⟨by decide, by decide, by decide, by rfl⟩

/-- C4: a value that is empty after stripping is accepted.  On the file `[s]`,
`key= =x` the parse succeeds, the handler is called with the empty value and the
table holds the empty string for `(s, key)`; the line `key=` fails with
`INI_ERROR_VALUE_EMPTY` at line 2. -/
theorem C4_blank_value_accepted (libc : Libc) :
    (ini_parse_handler (some "[s]\nkey= =x\n".toList) Statics.initial).map ParseOut.summary
        = some (1, ⟨INI_NO_ERROR, -1, 256⟩, [⟨some "s".toList, "key".toList, []⟩]) ∧
    parse_then_read libc "[s]\nkey= =x\n".toList "s".toList "key".toList
        = some (1, ⟨INI_FIELD_CSTRING, 0, .m_pszString []⟩) ∧
    (ini_parse_data (some "[s]\nkey=\n".toList) ini_data.zero Statics.initial).map ParseOut.summary
        = some (0, ⟨INI_ERROR_VALUE_EMPTY, 2, 256⟩, []) :=
  ⟨by decide, by rfl, by decide⟩

/-- C8: the error line survives a later attempt on a missing file.  The file
`[x` fails with `INI_ERROR_SECTION_END_ID` at line 1; an attempt on a missing
file made in that state leaves the pair `(INI_MISSING_FILE, 1)`, while from the
initial state it leaves `(INI_MISSING_FILE, -1)`. -/
theorem C8_missing_file_keeps_stale_line (data : ini_data) :
    (ini_parse_handler (some "[x\n".toList) Statics.initial).map ParseOut.summary
        = some (0, ⟨INI_ERROR_SECTION_END_ID, 1, 256⟩, []) ∧
    (ini_parse_data none data ⟨INI_ERROR_SECTION_END_ID, 1, 256⟩).map
        (fun out => (ini_get_last_error out.statics, ini_get_last_line out.statics))
        = some (INI_MISSING_FILE, 1) ∧
    (ini_parse_data none data Statics.initial).map
        (fun out => (ini_get_last_error out.statics, ini_get_last_line out.statics))
        = some (INI_MISSING_FILE, -1) :=
  ⟨by decide, by rfl, by rfl⟩

/-- C9: on a file that cannot be opened `ini_parse_data` returns 0, the error is
`INI_MISSING_FILE` and the table is exactly the one before the call, bucket by
bucket; `ini_parse_handler` returns 0 and makes no handler call. -/
theorem C9_missing_file (data : ini_data) (g : Statics) :
    (∃ out, ini_parse_data none data g = some out ∧ out.ret = 0 ∧
      ini_get_last_error out.statics = INI_MISSING_FILE ∧ out.data = some data) ∧
    (∃ out, ini_parse_handler none g = some out ∧ out.ret = 0 ∧
      ini_get_last_error out.statics = INI_MISSING_FILE ∧ out.calls = []) := by
  exact ⟨⟨_, rfl, rfl, rfl, rfl⟩, ⟨_, rfl, rfl, rfl, rfl⟩⟩

/-! ## Lines of the grammar -/

theorem ini_parse_section_brackets (st : ParseLoop) (inner : List Char) :
    ini_parse_section st ('[' :: (inner ++ [']'])) =
      if ini_strip inner ≠ [] then
        .next { st with parsingSection := false, pszSection := some (ini_strip inner) }
      else .fail INI_ERROR_SECTION_EMPTY st := by
  have hl : ('[' :: (inner ++ [']'])).getLast? = some ']' := by
    rw [← List.cons_append, List.getLast?_append_of_ne_nil _ (by simp)]
    rfl
  unfold ini_parse_section
  simp only [INI_SECTION_PREFIX, INI_SECTION_POSTFIX, List.head?_cons, hl, if_true,
    List.tail_cons, List.dropLast_concat]

theorem strtok_token (a b : List Char) (ha : a ≠ []) (hna : ∀ c ∈ a, c ≠ '=')
    (hb : b = [] ∨ ∃ r, b = '=' :: r) :
    strtok (a ++ b) INI_PARAMETER_DELIMITER = (some a, b.tail) := by
  obtain ⟨c, r, rfl⟩ := List.exists_cons_of_ne_nil ha
  have hc : c ≠ '=' := hna c (List.mem_cons_self _ _)
  have hp : ∀ x ∈ c :: r, (!INI_PARAMETER_DELIMITER.contains x) = true := by
    intro x hx
    simp [INI_PARAMETER_DELIMITER, hna x hx]
  have h1 : List.dropWhile (fun x => INI_PARAMETER_DELIMITER.contains x) (c :: r ++ b) = c :: r ++ b := by
    simp [List.dropWhile_cons, INI_PARAMETER_DELIMITER, hc]
  have h2 : List.takeWhile (fun x => !INI_PARAMETER_DELIMITER.contains x) (c :: r ++ b) = c :: r := by
    rw [List.takeWhile_append_of_pos hp]
    rcases hb with hb | ⟨t, hb⟩ <;> subst hb
    · simp
    · simp [List.takeWhile_cons, INI_PARAMETER_DELIMITER]
  have h3 : List.dropWhile (fun x => !INI_PARAMETER_DELIMITER.contains x) (c :: r ++ b) = b := by
    rw [List.dropWhile_append_of_pos hp]
    rcases hb with hb | ⟨t, hb⟩ <;> subst hb
    · simp
    · simp [List.dropWhile_cons, INI_PARAMETER_DELIMITER]
  unfold strtok
  simp only [h1, h2, h3]
  simp

theorem strtok_skip (e x : List Char) (he : ∀ c ∈ e, c = '=') :
    strtok (e ++ x) INI_PARAMETER_DELIMITER = strtok x INI_PARAMETER_DELIMITER := by
  have hp : ∀ c ∈ e, (INI_PARAMETER_DELIMITER.contains c) = true := by
    intro c hc
    simp [INI_PARAMETER_DELIMITER, he c hc]
  unfold strtok
  simp only [List.dropWhile_append_of_pos hp]

/-- The split of a parameter line `a ++ e ++ b ++ rest`: `a` and `b` are non-empty
and hold no `=`, `e` is a non-empty run of `=`, `rest` is empty or starts with
`=`.  The key is `a` right-stripped, the value is `b` stripped. -/
theorem ini_parse_entry_split (type : parse_type_t) (st : ParseLoop) (a e b rest : List Char)
    (ha : a ≠ []) (hna : ∀ c ∈ a, c ≠ '=') (he : e ≠ []) (hne : ∀ c ∈ e, c = '=')
    (hb : b ≠ []) (hnb : ∀ c ∈ b, c ≠ '=') (hrest : rest = [] ∨ ∃ r, rest = '=' :: r) :
    ini_parse_entry type st (a ++ e ++ b ++ rest) =
      dispatch_entry type st (ini_rstrip a) (ini_strip b) := by
  obtain ⟨c, e1, rfl⟩ := List.exists_cons_of_ne_nil he
  have hc : c = '=' := hne c (List.mem_cons_self _ _)
  subst hc
  have he1 : ∀ x ∈ e1, x = '=' := fun x hx => hne x (List.mem_cons_of_mem _ hx)
  have h1 : strtok (a ++ '=' :: e1 ++ b ++ rest) INI_PARAMETER_DELIMITER =
      (some a, e1 ++ (b ++ rest)) := by
    have := strtok_token a ('=' :: (e1 ++ (b ++ rest))) ha hna (Or.inr ⟨_, rfl⟩)
    simpa using this
  have h2 : strtok (e1 ++ (b ++ rest)) INI_PARAMETER_DELIMITER = (some b, rest.tail) := by
    rw [strtok_skip e1 _ he1]
    exact strtok_token b rest hb hnb hrest
  unfold ini_parse_entry dispatch_entry
  simp only [h1, h2, if_neg ha, if_neg hb]

theorem ini_find_value_append (sec key : List Char) (l1 l2 : List ini_entry) :
    ini_find_value sec key (l1 ++ l2) =
      match ini_find_value sec key l1 with
      | some v => some v
      | none => ini_find_value sec key l2 := by
  induction l1 with
  | nil => rfl
  | cons e l1 ih =>
    simp only [List.cons_append, ini_find_value]
    split_ifs
    · rfl
    · exact ih

theorem ini_find_value_reverse (sec key : List Char) (es : List ini_entry) :
    ini_find_value sec key es.reverse = last_value sec key es := by
  induction es with
  | nil => rfl
  | cons e es ih =>
    rw [List.reverse_cons, ini_find_value_append, ih]
    unfold last_value
    by_cases hp : e.key = key ∧ e.«section» = sec
    · have hp1 : key = e.key ∧ sec = e.«section» := ⟨hp.1.symm, hp.2.symm⟩
      rw [List.filter_cons_of_pos (by simpa using hp)]
      cases hf : List.filter (fun e => decide (e.key = key ∧ e.«section» = sec)) es with
      | nil => simp [ini_find_value, hp1]
      | cons a l =>
        obtain ⟨x, hx⟩ : ∃ x, (a :: l).getLast? = some x :=
          ⟨_, List.getLast?_eq_getLast _ (List.cons_ne_nil a l)⟩
        simp [List.getLast?_cons_cons, hx]
    · have hp1 : ¬ (key = e.key ∧ sec = e.«section») := fun h => hp ⟨h.1.symm, h.2.symm⟩
      rw [List.filter_cons_of_neg (by simpa using hp)]
      cases hf : List.filter (fun e => decide (e.key = key ∧ e.«section» = sec)) es with
      | nil => simp [ini_find_value, hp1]
      | cons a l =>
        obtain ⟨x, hx⟩ : ∃ x, (a :: l).getLast? = some x :=
          ⟨_, List.getLast?_eq_getLast _ (List.cons_ne_nil a l)⟩
        simp [hx]

theorem last_value_of_mem (es : List ini_entry) (e : ini_entry) (he : e ∈ es) :
    ∃ v, last_value e.«section» e.key es = some v := by
  unfold last_value
  have hm : e ∈ es.filter (fun x => decide (x.key = e.key ∧ x.«section» = e.«section»)) := by
    simp [List.mem_filter, he]
  cases hf : es.filter (fun x => decide (x.key = e.key ∧ x.«section» = e.«section»)) with
  | nil => rw [hf] at hm; cases hm
  | cons a l =>
    have hne : a :: l ≠ [] := by simp
    rw [List.getLast?_eq_getLast _ hne]
    exact ⟨_, rfl⟩

theorem ini_read_string_cstring (libc : Libc) (value : List Char) (dt : ini_datatype) :
    ini_read_string libc value dt INI_FIELD_CSTRING = (1, { dt with u := .m_pszString value }) := by
  simp [ini_read_string, INI_FIELD_CSTRING, INI_FIELD_INTEGER, INI_FIELD_INT64, INI_FIELD_FLOAT,
    INI_FIELD_DOUBLE, INI_FIELD_BYTE, INI_FIELD_CHAR]

/-- On an existing file the diagnostics left by `ini_parse` do not depend on the
diagnostics held before the call. -/
theorem diagnostics_independent_of_prior_state (content : List Char) (type : parse_type_t)
    (data : ini_data) (g1 g2 : Statics) (h1 : 2 ≤ g1.bufferSize) (h2 : 2 ≤ g2.bufferSize) :
    ∃ out1 out2, ini_parse (some content) type data g1 = some out1 ∧
      ini_parse (some content) type data g2 = some out2 ∧ out1.ret = out2.ret ∧
      ini_get_last_error out1.statics = ini_get_last_error out2.statics ∧
      ini_get_last_line out1.statics = ini_get_last_line out2.statics := by
  obtain ⟨bs1, _, hout1⟩ := ini_parse_some content type data g1 h1
  obtain ⟨bs2, _, hout2⟩ := ini_parse_some content type data g2 h2
  refine ⟨_, _, hout1, hout2, ?_⟩
  have := ParseOut.of_fields
    (run_lines type (ParseLoop.start type data) (phys_lines content)) _ bs2 bs1 rfl
  exact ⟨this.1, this.2.1, this.2.2.1⟩

/-! ## Value coercion -/

theorem ini_read_string_effective (libc : Libc) (value : List Char) (dt : ini_datatype)
    (fieldtype : Int) (h : effective_tag dt fieldtype ≠ -1) :
    ini_read_string libc value dt fieldtype =
      ini_read_string libc value dt (effective_tag dt fieldtype) := by
  unfold ini_read_string
  simp only [effective_tag] at h ⊢
  rw [if_pos h]

theorem ini_read_string_ret_one (libc : Libc) (value : List Char) (dt : ini_datatype)
    (fieldtype : Int) (h0 : 0 ≤ effective_tag dt fieldtype) (h9 : effective_tag dt fieldtype ≤ 9) :
    (ini_read_string libc value dt fieldtype).1 = 1 := by
  rw [ini_read_string_effective libc value dt fieldtype (by omega)]
  generalize effective_tag dt fieldtype = tag at h0 h9
  have h : tag = 0 ∨ tag = 1 ∨ tag = 2 ∨ tag = 3 ∨ tag = 4 ∨ tag = 5 ∨ tag = 6 ∨ tag = 7 ∨
      tag = 8 ∨ tag = 9 := by omega
  rcases h with h | h | h | h | h | h | h | h | h | h <;> subst h <;> rfl

/-- C11: boolean coercion.  With the boolean tag `ini_read_string` returns 1 for
every string; `m_bool` is 0 when the string is exactly `false` or exactly `0`
and 1 for every other string, whether the tag is passed as argument or taken
from the datatype. -/
theorem C11_boolean_coercion (libc : Libc) (v : List Char) (dt : ini_datatype) :
    (ini_read_string libc v dt INI_FIELD_BOOL).1 = 1 ∧
    (v = "false".toList ∨ v = "0".toList →
      (ini_read_string libc v dt INI_FIELD_BOOL).2 = { dt with u := .m_bool 0 }) ∧
    (v ≠ "false".toList → v ≠ "0".toList →
      (ini_read_string libc v dt INI_FIELD_BOOL).2 = { dt with u := .m_bool 1 }) ∧
    (dt.fieldtype = INI_FIELD_BOOL →
      ini_read_string libc v dt (-1) = ini_read_string libc v dt INI_FIELD_BOOL) := by
  have h : ini_read_string libc v dt INI_FIELD_BOOL =
      (1, { dt with u := .m_bool (if v = "false".toList ∨ v = "0".toList then 0 else 1) }) := rfl
  refine ⟨by rw [h], ?_, ?_, ?_⟩
  · intro hv
    rw [h, if_pos hv]
  · intro h1 h2
    rw [h, if_neg (by rintro (h3 | h3); exact h1 h3; exact h2 h3)]
  · intro hdt
    rw [ini_read_string_effective libc v dt (-1) (by simp [effective_tag, hdt, INI_FIELD_BOOL])]
    simp [effective_tag, hdt]

/-- C11 at the strings named in the claim. -/
theorem C11_witness :
    (∀ v ∈ ["false".toList, "0".toList],
      (ini_read_string Libc.zero v ⟨INI_FIELD_BOOL, 0, .m_int 7⟩ (-1)) =
        (1, ⟨INI_FIELD_BOOL, 0, .m_bool 0⟩)) ∧
    (∀ v ∈ ["true".toList, "1".toList, "no".toList, "False".toList, "00".toList,
        "anything-else".toList, " false".toList],
      (ini_read_string Libc.zero v ⟨INI_FIELD_INTEGER, 0, .m_int 7⟩ INI_FIELD_BOOL) =
        (1, ⟨INI_FIELD_INTEGER, 0, .m_bool 1⟩)) ∧
    (ini_read_string Libc.zero "false".toList ⟨INI_FIELD_INTEGER, 0, .m_int 7⟩ INI_FIELD_BOOL).2 =
      ⟨INI_FIELD_INTEGER, 0, .m_bool 0⟩ :=
  ⟨by decide, by decide,
    (C11_boolean_coercion Libc.zero "false".toList ⟨INI_FIELD_INTEGER, 0, .m_int 7⟩).2.1
      (Or.inl rfl)⟩

theorem ini_lstrip_spec (s : List Char) :
    ∃ pre, s = pre ++ ini_lstrip s ∧ (∀ c ∈ pre, strip_char c = true) ∧
      ∀ c, (ini_lstrip s).head? = some c → strip_char c = false := by
  refine ⟨s.takeWhile strip_char, ?_, ?_, ?_⟩
  · rw [ini_lstrip_eq, List.takeWhile_append_dropWhile]
  · intro c hc
    exact (List.mem_takeWhile_imp hc)
  · intro c hc
    rw [ini_lstrip_eq] at hc
    have := List.head?_dropWhile_not strip_char s
    rw [hc] at this
    simpa using this

theorem ini_rstrip_spec (s : List Char) :
    ∃ suf, s = ini_rstrip s ++ suf ∧ (∀ c ∈ suf, strip_char c = true) ∧
      ∀ c, (ini_rstrip s).getLast? = some c → strip_char c = false := by
  refine ⟨(s.reverse.takeWhile strip_char).reverse, ?_, ?_, ?_⟩
  · rw [ini_rstrip_eq, ← List.reverse_append, List.takeWhile_append_dropWhile,
      List.reverse_reverse]
  · intro c hc
    exact List.mem_takeWhile_imp (List.mem_reverse.mp hc)
  · intro c hc
    rw [ini_rstrip_eq, List.getLast?_reverse] at hc
    have := List.head?_dropWhile_not strip_char s.reverse
    rw [hc] at this
    simpa using this

theorem ini_lstrip_fixed (s : List Char) (h : ∀ c, s.head? = some c → strip_char c = false) :
    ini_lstrip s = s := by
  cases s with
  | nil => rfl
  | cons c r => simp [ini_lstrip_eq, List.dropWhile_cons, h c rfl]

theorem ini_rstrip_fixed (s : List Char) (h : ∀ c, s.getLast? = some c → strip_char c = false) :
    ini_rstrip s = s := by
  rw [ini_rstrip_eq]
  have : s.reverse.dropWhile strip_char = s.reverse := by
    cases hr : s.reverse with
    | nil => rfl
    | cons c r =>
      have hc : s.getLast? = some c := by
        rw [← List.reverse_reverse s, hr, List.getLast?_reverse]; rfl
      simp [List.dropWhile_cons, h c hc]
  rw [this, List.reverse_reverse]

theorem ini_rstrip_head (s : List Char) (c : Char) (h : (ini_rstrip s).head? = some c) :
    s.head? = some c := by
  obtain ⟨suf, h1, _, _⟩ := ini_rstrip_spec s
  cases hr : ini_rstrip s with
  | nil => rw [hr] at h; cases h
  | cons d r =>
    rw [hr] at h h1
    rw [h1]
    simpa using h

/-- C18: whitespace stripping.  `ini_lstrip` returns the suffix that starts at the
first character outside space, tab, newline; `ini_rstrip` removes exactly the
trailing run of such characters and does nothing on the empty string;
`ini_strip` is `ini_rstrip` after `ini_lstrip`, its result neither starts nor
ends with a strip character, it is empty for a string of strip characters only,
and stripping twice is stripping once.  Carriage return is not a strip
character. -/
theorem C18_whitespace_stripping (s : List Char) :
    (∃ pre, s = pre ++ ini_lstrip s ∧ (∀ c ∈ pre, strip_char c = true) ∧
      ∀ c, (ini_lstrip s).head? = some c → strip_char c = false) ∧
    (∃ suf, s = ini_rstrip s ++ suf ∧ (∀ c ∈ suf, strip_char c = true) ∧
      ∀ c, (ini_rstrip s).getLast? = some c → strip_char c = false) ∧
    ini_rstrip [] = [] ∧
    ini_strip s = ini_rstrip (ini_lstrip s) ∧
    (∀ c, (ini_strip s).head? = some c → strip_char c = false) ∧
    (∀ c, (ini_strip s).getLast? = some c → strip_char c = false) ∧
    ((∀ c ∈ s, strip_char c = true) → ini_strip s = []) ∧
    ini_strip (ini_strip s) = ini_strip s ∧
    (∀ c, strip_char c = true ↔ c = ' ' ∨ c = '\t' ∨ c = '\n') ∧
    strip_char '\r' = false := by
  have hhead : ∀ c, (ini_strip s).head? = some c → strip_char c = false := by
    intro c hc
    obtain ⟨_, _, _, h⟩ := ini_lstrip_spec s
    exact h c (ini_rstrip_head _ c hc)
  have hlast : ∀ c, (ini_strip s).getLast? = some c → strip_char c = false := by
    intro c hc
    obtain ⟨_, _, _, h⟩ := ini_rstrip_spec (ini_lstrip s)
    exact h c hc
  refine ⟨ini_lstrip_spec s, ini_rstrip_spec s, rfl, rfl, hhead, hlast, ?_, ?_, strip_char_iff,
    by decide⟩
  · intro hall
    have : ini_lstrip s = [] := by
      rw [ini_lstrip_eq, List.dropWhile_eq_nil_iff]
      exact hall
    show ini_rstrip (ini_lstrip s) = []
    rw [this]
    rfl
  · show ini_rstrip (ini_lstrip (ini_strip s)) = ini_strip s
    rw [ini_lstrip_fixed _ hhead, ini_rstrip_fixed _ hlast]

/-- C18 at ` \t a b \n`, at a string of strip characters only and at a string
ending in a carriage return. -/
theorem C18_witness :
    ini_strip " \t a b \n".toList = "a b".toList ∧
    ini_strip " \t\n ".toList = [] ∧
    ini_strip " a\r".toList = "a\r".toList ∧
    ini_lstrip " \t a b \n".toList = "a b \n".toList ∧
    ini_rstrip " \t a b \n".toList = " \t a b".toList :=
  ⟨by decide, (C18_whitespace_stripping " \t\n ".toList).2.2.2.2.2.2.1 (by decide), by decide,
    by decide, by decide⟩

theorem ini_remove_comment_longest (s : List Char) :
    ∀ p, p <+: s → (∀ c ∈ p, comment_char c = false) → p <+: ini_remove_comment s := by
  induction s with
  | nil =>
    intro p hp _
    rw [List.prefix_nil] at hp
    subst hp
    exact List.nil_prefix
  | cons a s ih =>
    intro p hp hc
    cases p with
    | nil => exact List.nil_prefix
    | cons b p =>
      obtain ⟨hab, hps⟩ := List.cons_prefix_cons.mp hp
      subst hab
      have hb : comment_char b = false := hc b (List.mem_cons_self _ _)
      rw [ini_remove_comment_eq, List.takeWhile_cons]
      simp only [hb, Bool.not_false, if_true]
      exact List.cons_prefix_cons.mpr ⟨rfl, ih p hps (fun c h => hc c (List.mem_cons_of_mem _ h))⟩

/-- C19: comment truncation.  `ini_remove_comment` leaves a prefix that holds no
comment character and is followed, if by anything, by `;` or `#`; it is the
longest prefix free of comment characters; a string without comment characters
is unchanged; removing twice is removing once. -/
theorem C19_comment_truncation (s : List Char) :
    (∃ rest, s = ini_remove_comment s ++ rest ∧
      ∀ c, rest.head? = some c → c = ';' ∨ c = '#') ∧
    (∀ c ∈ ini_remove_comment s, c ≠ ';' ∧ c ≠ '#') ∧
    (∀ p, p <+: s → (∀ c ∈ p, c ≠ ';' ∧ c ≠ '#') → p <+: ini_remove_comment s) ∧
    ((∀ c ∈ s, c ≠ ';' ∧ c ≠ '#') → ini_remove_comment s = s) ∧
    ini_remove_comment (ini_remove_comment s) = ini_remove_comment s := by
  have hno : ∀ c, (c ≠ ';' ∧ c ≠ '#') ↔ comment_char c = false := by
    intro c
    rw [← Bool.not_eq_true, comment_char_iff]
    tauto
  have hfree : ∀ c ∈ ini_remove_comment s, c ≠ ';' ∧ c ≠ '#' := by
    intro c hc
    rw [hno]
    rw [ini_remove_comment_eq] at hc
    simpa using List.mem_takeWhile_imp hc
  have hfix : ∀ t : List Char, (∀ c ∈ t, c ≠ ';' ∧ c ≠ '#') → ini_remove_comment t = t := by
    intro t ht
    rw [ini_remove_comment_eq, List.takeWhile_eq_self_iff]
    intro c hc
    simp [(hno c).mp (ht c hc)]
  refine ⟨⟨s.dropWhile (fun c => !comment_char c), ?_, ?_⟩, hfree, ?_, hfix s, hfix _ hfree⟩
  · rw [ini_remove_comment_eq, List.takeWhile_append_dropWhile]
  · intro c hc
    have := List.head?_dropWhile_not (fun c => !comment_char c) s
    rw [hc] at this
    rw [← comment_char_iff]
    simpa using this
  · intro p hp hc
    exact ini_remove_comment_longest s p hp (fun c h => (hno c).mp (hc c h))

/-- C19 at a value and at a section name that hold a `;`: the line is cut there,
so `[a;b]` fails for want of `]` and `k = v;w` yields the value `v`. -/
theorem C19_witness :
    ini_remove_comment "k = v;w # x".toList = "k = v".toList ∧
    ini_remove_comment "[a;b]".toList = "[a".toList ∧
    ini_remove_comment "plain".toList = "plain".toList ∧
    (ini_parse_handler (some "[a;b]\n".toList) Statics.initial).map ParseOut.summary
      = some (0, ⟨INI_ERROR_SECTION_END_ID, 1, 256⟩, []) ∧
    (ini_parse_handler (some "[s]\nk = v;w\n".toList) Statics.initial).map ParseOut.summary
      = some (1, ⟨INI_NO_ERROR, -1, 256⟩, [⟨some "s".toList, "k".toList, "v".toList⟩]) :=
  ⟨by decide, by decide,
    (C19_comment_truncation "plain".toList).2.2.2.1 (by decide), by decide, by decide⟩

/-! ## The bucket index -/

theorem wrapInt32_of_range (x : Int) (h0 : -2147483648 ≤ x) (h1 : x < 2147483648) :
    wrapInt32 x = x := by
  unfold wrapInt32
  omega

theorem wrapInt32_range (x : Int) : -2147483648 ≤ wrapInt32 x ∧ wrapInt32 x < 2147483648 := by
  unfold wrapInt32
  omega

theorem schar_of_ascii (c : Char) (h : c.toNat < 128) : 0 ≤ schar c ∧ schar c ≤ 127 := by
  unfold schar
  have : c.toNat % 256 = c.toNat := Nat.mod_eq_of_lt (by omega)
  rw [this, if_pos h]
  omega

theorem hash_fold_ascii (l : List Char) (h : ∀ c ∈ l, c.toNat < 128) :
    ∀ acc : Int, 0 ≤ acc → acc + 127 * l.length < 2147483648 →
      0 ≤ l.foldl (fun hash c => wrapInt32 (hash + schar c)) acc := by
  induction l with
  | nil => intro acc h0 _; simpa using h0
  | cons c l ih =>
    intro acc h0 h1
    have hc := schar_of_ascii c (h c (List.mem_cons_self _ _))
    simp only [List.length_cons, Nat.cast_add, Nat.cast_one] at h1
    simp only [List.foldl_cons]
    rw [wrapInt32_of_range _ (by omega) (by omega)]
    exact ih (fun x hx => h x (List.mem_cons_of_mem _ hx)) _ (by omega) (by omega)

/-- A key of fewer than 2^24 characters, all with codes below 128, has its bucket
index in range. -/
theorem bucket_ok_of_ascii (key : List Char) (h : ∀ c ∈ key, c.toNat < 128)
    (hlen : key.length < 16777216) : bucket_ok key := by
  have h0 : 0 ≤ ini_get_hash key key.length := by
    unfold ini_get_hash
    rw [List.take_length]
    exact hash_fold_ascii key h 0 (le_refl _) (by omega)
  unfold bucket_ok ini_bucket INI_HASH_TABLE_SIZE
  exact ⟨Int.tmod_nonneg _ h0, Int.tmod_lt_of_pos _ (by decide)⟩

/-- C20: the bucket index is not always valid.  The key `é` in UTF-8 (the
characters C3 A9, both negative as signed `char`) has the hash -148 and the
bucket index -20; the key of the single character FF has the index -1.
`ini_add_entry` and `ini_read_data` then access the bucket array out of
bounds. -/
theorem C20_bucket_index_negative (libc : Libc) (dt : ini_datatype) :
    ini_get_hash "\xc3\xa9".toList 2 = -148 ∧
    ini_bucket "\xc3\xa9".toList = -20 ∧
    ini_bucket "\xff".toList = -1 ∧
    ¬ bucket_ok "\xc3\xa9".toList ∧
    (ini_add_entry ini_data.zero ⟨"\xff".toList, "v".toList, "s".toList⟩).isNone = true ∧
    ini_read_data libc ini_data.zero "s".toList "\xff".toList dt INI_FIELD_INTEGER = none :=
  ⟨by decide, by decide, by decide, by decide, by decide, by rfl⟩

/-- C17: key/value split of an entry line.  When entries are expected and the
normalised line is `k ++ e ++ v ++ rest`, with `k` non-empty, free of `=` and
not starting with `[`, `e` a non-empty run of `=`, `v` non-empty and free of
`=`, and `rest` empty or starting with `=`, the line is accepted with the key
`k` right-stripped and the value `v` stripped; `rest` plays no part. -/
theorem C17_key_value_split (type : parse_type_t) (st : ParseLoop) (buf k e v rest : List Char)
    (hst : st.parsingSection = false) (hnorm : normalised buf = k ++ e ++ v ++ rest)
    (hk : k ≠ []) (hnk : ∀ c ∈ k, c ≠ '=') (hk1 : k.head? ≠ some '[')
    (he : e ≠ []) (hne : ∀ c ∈ e, c = '=')
    (hv : v ≠ []) (hnv : ∀ c ∈ v, c ≠ '=') (hrest : rest = [] ∨ ∃ r, rest = '=' :: r) :
    ini_parse_line type st buf = dispatch_entry type st (ini_rstrip k) (ini_strip v) := by
  have hne0 : k ++ e ++ v ++ rest ≠ [] := by simp [hk]
  have hhead : (k ++ e ++ v ++ rest).head? ≠ some INI_SECTION_PREFIX := by
    obtain ⟨c, r, rfl⟩ := List.exists_cons_of_ne_nil hk
    simpa [INI_SECTION_PREFIX] using hk1
  rw [ini_parse_line_def, hnorm, if_neg hne0, hst, if_neg (by decide), if_neg hhead]
  exact ini_parse_entry_split type st k e v rest hk hnk he hne hv hnv hrest

/-- C17 at the lines `a==b`, `a=b=c` and `key  =  some value ==x`. -/
theorem C17_witness :
    ini_parse_line .PARSE_HANDLER ⟨2, false, some "s".toList, some ini_data.zero, []⟩ "a==b\n".toList =
      .next ⟨2, false, some "s".toList, some ini_data.zero,
        [⟨some "s".toList, "a".toList, "b".toList⟩]⟩ ∧
    (ini_parse_handler (some "[s]\na==b\na=b=c\nkey  =  some value ==x\n".toList)
        Statics.initial).map ParseOut.summary =
      some (1, ⟨INI_NO_ERROR, -1, 256⟩,
        [⟨some "s".toList, "a".toList, "b".toList⟩, ⟨some "s".toList, "a".toList, "b".toList⟩,
         ⟨some "s".toList, "key".toList, "some value".toList⟩]) :=
  ⟨C17_key_value_split .PARSE_HANDLER ⟨2, false, some "s".toList, some ini_data.zero, []⟩ "a==b\n".toList
      "a".toList "==".toList "b".toList [] rfl (by decide) (by decide) (by decide) (by decide)
      (by decide) (by decide) (by decide) (by decide) (Or.inl rfl),
    by decide⟩

/-- C12 (amended): integer coercion.  With the integer tag `ini_read_string`
returns 1 for every string.  When `atol` returns the value of the leading
numeral of `v` (0 if there is none), `m_int` is that value provided it lies in
the range of `int`, and with the byte tag `m_byte` is that value reduced to its
low 8 bits. -/
theorem C12_integer_coercion_amended (libc : Libc) (v : List Char) (dt : ini_datatype)
    (hatol : libc.atol v = leading_numeral v) :
    (ini_read_string libc v dt INI_FIELD_INTEGER).1 = 1 ∧
    (-2147483648 ≤ leading_numeral v → leading_numeral v < 2147483648 →
      (ini_read_string libc v dt INI_FIELD_INTEGER).2 =
        { dt with u := .m_int (leading_numeral v) }) ∧
    ini_read_string libc v dt INI_FIELD_BYTE =
      (1, { dt with u := .m_byte ((leading_numeral v % 256).toNat) }) := by
  have h1 : ini_read_string libc v dt INI_FIELD_INTEGER =
      (1, { dt with u := .m_int (wrapInt32 (libc.atol v)) }) := rfl
  have h2 : ini_read_string libc v dt INI_FIELD_BYTE =
      (1, { dt with u := .m_byte ((libc.atol v % 256).toNat) }) := rfl
  refine ⟨by rw [h1], ?_, by rw [h2, hatol]⟩
  intro hlo hhi
  rw [h1, hatol, wrapInt32_of_range _ hlo hhi]

/-- C12 (amended) at the strings of the claim: `42`, `abc`, `12abc`, and `257`
with the byte tag; also a signed numeral after white space. -/
theorem C12_witness :
    (ini_read_string Libc.decimal "12abc".toList ⟨INI_FIELD_INTEGER, 0, .m_int 7⟩ INI_FIELD_INTEGER)
      = (1, ⟨INI_FIELD_INTEGER, 0, .m_int 12⟩) ∧
    (ini_read_string Libc.decimal "42".toList ⟨INI_FIELD_INTEGER, 0, .m_int 7⟩ (-1))
      = (1, ⟨INI_FIELD_INTEGER, 0, .m_int 42⟩) ∧
    (ini_read_string Libc.decimal "abc".toList ⟨INI_FIELD_INTEGER, 0, .m_int 7⟩ (-1))
      = (1, ⟨INI_FIELD_INTEGER, 0, .m_int 0⟩) ∧
    (ini_read_string Libc.decimal " \t-15 x".toList ⟨INI_FIELD_INTEGER, 0, .m_int 7⟩ (-1))
      = (1, ⟨INI_FIELD_INTEGER, 0, .m_int (-15)⟩) ∧
    (ini_read_string Libc.decimal "257".toList ⟨INI_FIELD_INTEGER, 0, .m_int 7⟩ INI_FIELD_BYTE)
      = (1, ⟨INI_FIELD_INTEGER, 0, .m_byte 1⟩) := by
  have h := C12_integer_coercion_amended Libc.decimal "12abc".toList
    ⟨INI_FIELD_INTEGER, 0, .m_int 7⟩ rfl
  refine ⟨?_, by decide, by decide, by decide, by decide⟩
  have h2 := h.2.1 (by decide) (by decide)
  exact Prod.ext h.1 h2

/-- C12 as stated fails at the string `2147483648`: the numeral has the value
2^31, which no `int` holds, so `m_int` differs from it whatever `atol` returns;
with an `atol` that returns the value, `m_int` is -2^31. -/
theorem C12_counterexample :
    leading_numeral "2147483648".toList = 2147483648 ∧
    (¬ ∃ (libc : Libc) (dt : ini_datatype),
      (ini_read_string libc "2147483648".toList dt INI_FIELD_INTEGER).2.u =
        .m_int (leading_numeral "2147483648".toList)) ∧
    ini_read_string Libc.decimal "2147483648".toList ⟨INI_FIELD_INTEGER, 0, .m_int 7⟩
        INI_FIELD_INTEGER = (1, ⟨INI_FIELD_INTEGER, 0, .m_int (-2147483648)⟩) := by
  have hv : leading_numeral "2147483648".toList = 2147483648 := by decide
  refine ⟨hv, ?_, by decide⟩
  rintro ⟨libc, dt, h⟩
  have h1 : (ini_read_string libc "2147483648".toList dt INI_FIELD_INTEGER).2.u =
      .m_int (wrapInt32 (libc.atol "2147483648".toList)) := rfl
  rw [h1, hv] at h
  have h2 := wrapInt32_range (libc.atol "2147483648".toList)
  have h3 : wrapInt32 (libc.atol "2147483648".toList) = 2147483648 := by
    injection h
  omega

theorem last_value_eq_none (sec key : List Char) (es : List ini_entry) :
    last_value sec key es = none ↔ ¬ ∃ e ∈ es, e.key = key ∧ e.«section» = sec := by
  constructor
  · rintro h ⟨e, he, hk, hs⟩
    subst hk hs
    obtain ⟨v, hv⟩ := last_value_of_mem es e he
    rw [h] at hv
    cases hv
  · intro h
    unfold last_value
    have : es.filter (fun e => decide (e.key = key ∧ e.«section» = sec)) = [] := by
      rw [List.filter_eq_nil_iff]
      intro e he hp
      exact h ⟨e, he, by simpa using hp⟩
    rw [this]
    rfl

/-- Typed read from a table built by inserts whose bucket indices are in range,
with a key whose bucket index is in range and a documented tag: it returns 1
exactly when an inserted entry has that key and section, then with the result of
`ini_read_string` on the value inserted last for them; otherwise it returns 0
and leaves the datatype as it was. -/
theorem ini_read_data_typed (libc : Libc) (es : List ini_entry) (sec key : List Char)
    (dt : ini_datatype) (ft : Int) (hes : ∀ e ∈ es, bucket_ok e.key) (hk : bucket_ok key)
    (h0 : 0 ≤ effective_tag dt ft) (h9 : effective_tag dt ft ≤ 9) :
    ∃ d r, ini_add_entries ini_data.zero es = some d ∧
      ini_read_data libc d sec key dt ft = some r ∧
      (r.1 = 1 ↔ ∃ e ∈ es, e.key = key ∧ e.«section» = sec) ∧
      (∀ v, last_value sec key es = some v → r = ini_read_string libc v dt ft) ∧
      (r.1 ≠ 1 → r = (0, dt)) := by
  obtain ⟨d, hd, hr⟩ := ini_read_data_after_inserts libc es sec key dt ft hes hk
  rw [ini_find_value_reverse] at hr
  cases hv : last_value sec key es with
  | none =>
    rw [hv] at hr
    refine ⟨d, (0, dt), hd, hr, ?_, ?_, fun _ => rfl⟩
    · constructor
      · intro h; exact absurd h (by simp)
      · intro h; exact absurd h ((last_value_eq_none sec key es).mp hv)
    · intro v h; cases h
  | some v =>
    rw [hv] at hr
    have h1 := ini_read_string_ret_one libc v dt ft h0 h9
    refine ⟨d, _, hd, hr, ?_, ?_, fun h => absurd h1 h⟩
    · constructor
      · intro _
        by_contra hno
        rw [(last_value_eq_none sec key es).mpr hno] at hv
        cases hv
      · intro _; exact h1
    · intro w hw
      cases hw
      rfl

/-- C14: the typed read is not defined for every key.  For the key `é` (the
characters C3 A9, bucket index -20) `ini_read_data` reads outside the bucket
array, on the empty table and with every tag; for the ASCII key `k` on the empty
table it returns 0 and leaves the datatype. -/
theorem C14_typed_read_out_of_range (libc : Libc) (dt : ini_datatype) (fieldtype : Int) :
    ini_bucket "\xc3\xa9".toList = -20 ∧
    ini_read_data libc ini_data.zero "s".toList "\xc3\xa9".toList dt fieldtype = none ∧
    ini_read_data libc ini_data.zero "s".toList "k".toList dt fieldtype = some (0, dt) :=
  ⟨by decide, by rfl, by rfl⟩

theorem first_line_shape (file : List Char) :
    ∃ l, '\n' ∉ l ∧
      ((file = l ++ '\n' :: (first_line file).2 ∧ (first_line file).1 = l ++ ['\n']) ∨
        (file = l ∧ first_line file = (l, []))) := by
  induction file with
  | nil => exact ⟨[], by simp, Or.inr ⟨rfl, rfl⟩⟩
  | cons c cs ih =>
    by_cases hc : c = '\n'
    · subst hc
      exact ⟨[], by simp, Or.inl ⟨by simp [first_line], by simp [first_line]⟩⟩
    · obtain ⟨l, hl, h⟩ := ih
      refine ⟨c :: l, ?_, ?_⟩
      · intro hm
        rcases List.mem_cons.mp hm with hm | hm
        · exact hc hm.symm
        · exact hl hm
      · rcases h with ⟨h1, h2⟩ | ⟨h1, h2⟩
        · left
          simp only [first_line, hc, if_false, h2, List.cons_append, List.cons.injEq, true_and]
          exact ⟨h1, trivial⟩
        · right
          simp only [first_line, hc, if_false, h2]
          exact ⟨by rw [← h1], trivial⟩

/-! ## The read loop with the 32-bit `int` -/

theorem fgets_take_full (k : Nat) : ∀ file : List Char,
    (fgets_take k file).2 ≠ [] → (fgets_take k file).1.getLast? ≠ some '\n' →
      (fgets_take k file).1.length = k := by
  induction k with
  | zero => intro file _ _; simp [fgets_take]
  | succ k ih =>
    intro file h1 h2
    cases file with
    | nil => simp [fgets_take] at h1
    | cons c cs =>
      by_cases hc : c = '\n'
      · exfalso; apply h2; simp [fgets_take, hc]
      · simp only [fgets_take, hc, if_false] at h1 h2 ⊢
        rw [List.length_cons, ih cs h1 (fun h => h2 ((getLast?_cons_of_ne _ hc).mpr h))]

theorem machine_grow_buffer_eq (realloc : Nat → Bool)
    (hmem : ∀ n, n ≤ INT_MAX → realloc n = true) :
    ∀ (fuel : Nat) (buf : List Char) (bs : Nat) (file : List Char) (r : List Char × Nat × List Char),
      bs ≤ INT_MAX → grow_inv buf bs file → ini_grow_buffer fuel buf bs file = some r →
      Machine.ini_grow_buffer realloc fuel buf bs file = some (.done r.1 r.2.1 r.2.2) ∧
        r.2.1 ≤ INT_MAX := by
  intro fuel
  induction fuel with
  | zero => intro buf bs file r _ _ h; simp [ini_grow_buffer] at h
  | succ fuel ih =>
    intro buf bs file r hbs hinv h
    unfold ini_grow_buffer at h
    unfold Machine.ini_grow_buffer
    by_cases hc : buf.getLast? ≠ some '\n' ∧ file ≠ []
    · rw [if_pos hc] at h ⊢
      obtain ⟨hfull, hlen⟩ := hinv hc.1 hc.2
      have hpos := List.length_pos.mpr (first_line_ne_nil file hc.2)
      have h2 : ¬ INT_MAX < bs * 2 := by unfold INT_MAX; omega
      have h3 : ¬ realloc (bs * 2) = false := by
        rw [hmem (bs * 2) (by unfold INT_MAX; omega)]; simp
      rw [if_neg h2, if_neg h3]
      have hfg := fgets_eq (bs * 2 - buf.length) file (by omega) hc.2
      rw [hfg] at h ⊢
      simp only [] at h ⊢
      refine ih _ _ _ r (by unfold INT_MAX; omega) ?_ h
      intro hl hrest
      have hne := fgets_take_ne_nil (bs * 2 - buf.length - 1) file (by omega) hc.2
      have hl' : (fgets_take (bs * 2 - buf.length - 1) file).1.getLast? ≠ some '\n' := by
        rw [List.getLast?_append_of_ne_nil _ hne] at hl
        exact hl
      have hk := fgets_take_full _ file hrest hl'
      have hfl := congrArg (fun p => p.1.length) (fgets_take_no_newline _ file hl')
      simp only [List.length_append] at hfl
      rw [List.length_append]
      constructor
      · omega
      · omega
    · rw [if_neg hc] at h ⊢
      injection h with h
      subst h
      exact ⟨rfl, hbs⟩

theorem machine_parse_loop_eq (realloc : Nat → Bool) (type : parse_type_t)
    (hmem : ∀ n, n ≤ INT_MAX → realloc n = true) :
    ∀ (fuel : Nat) (file : List Char) (bs : Nat) (st : ParseLoop) (r : LineResult × Nat),
      2 ≤ bs → bs ≤ INT_MAX → (∀ l ∈ phys_lines file, l.length < 1073741824) →
      st.line + (phys_lines file).length ≤ (INT_MAX : Int) →
      ini_parse_loop type fuel file bs st = some r →
      Machine.ini_parse_loop realloc type fuel file bs st = some (.ended r.1 r.2) ∧
        r.2 ≤ INT_MAX := by
  intro fuel
  induction fuel with
  | zero => intro file bs st r _ _ _ _ h; simp [ini_parse_loop] at h
  | succ fuel ih =>
    intro file bs st r hbs hint hlen hline h
    by_cases hfile : file = []
    · subst hfile
      have hn : fgets bs [] = none := by
        unfold fgets; rw [if_neg (by omega), if_neg (by omega), if_pos rfl]
      unfold ini_parse_loop at h
      unfold Machine.ini_parse_loop
      simp only [hn] at h ⊢
      injection h with h
      subst h
      exact ⟨rfl, hint⟩
    · obtain ⟨buf, file1, bs1, hbs1, hfg, hgrow⟩ := read_line_spec bs file hbs hfile
      have hfg' := fgets_eq bs file hbs hfile
      rw [hfg'] at hfg
      injection hfg with hfg
      have hb : buf = (fgets_take (bs - 1) file).1 := by rw [hfg]
      have hf1 : file1 = (fgets_take (bs - 1) file).2 := by rw [hfg]
      have hphys := phys_lines_eq file hfile
      have hinv : grow_inv buf bs file1 := by
        intro hl hrest
        rw [hb] at hl ⊢
        rw [hf1] at hrest ⊢
        have hk := fgets_take_full _ file hrest hl
        have hfl := congrArg (fun p => p.1.length) (fgets_take_no_newline _ file hl)
        simp only [List.length_append] at hfl
        have := hlen (first_line file).1 (by rw [hphys]; exact List.mem_cons_self _ _)
        constructor
        · omega
        · omega
      obtain ⟨g1, g2⟩ := machine_grow_buffer_eq realloc hmem _ buf bs file1 _ hint hinv hgrow
      simp only [] at g1 g2
      rw [hphys, List.length_cons] at hline
      have hl1 : ¬ (INT_MAX : Int) < st.line + 1 := by push_cast at hline; omega
      unfold ini_parse_loop at h
      unfold Machine.ini_parse_loop
      rw [hfg'] at h ⊢
      rw [hfg] at h ⊢
      simp only [hgrow, g1, if_neg hl1] at h ⊢
      have hst := ini_parse_line_st_line type { st with line := st.line + 1 } (first_line file).1
      cases hpl : ini_parse_line type { st with line := st.line + 1 } (first_line file).1 with
      | next st1 =>
        rw [hpl] at h hst
        simp only [LineResult.st] at hst
        simp only [] at h ⊢
        refine ih _ _ st1 r (by omega) g2 ?_ ?_ h
        · intro l hl
          exact hlen l (by rw [hphys]; exact List.mem_cons_of_mem _ hl)
        · rw [hst]; push_cast at hline ⊢; omega
      | fail code st1 =>
        rw [hpl] at h
        simp only [] at h ⊢
        injection h with h
        subst h
        exact ⟨rfl, g2⟩

theorem machine_parse_eq (realloc : Nat → Bool) (type : parse_type_t) (data : ini_data)
    (content : List Char) (g : Statics) (hmem : ∀ n, n ≤ INT_MAX → realloc n = true)
    (hbs : 2 ≤ g.bufferSize) (hint : g.bufferSize ≤ INT_MAX) (hlen : within_int content) :
    ∃ out, ini_parse (some content) type data g = some out ∧
      Machine.ini_parse realloc (some content) type data g = some (.returned out) ∧
      out.statics.bufferSize ≤ INT_MAX := by
  obtain ⟨bs', hbs', h⟩ := ini_parse_loop_spec type (content.length + 1) content g.bufferSize
    (ParseLoop.start type data) (by omega) hbs
  obtain ⟨m1, m2⟩ := machine_parse_loop_eq realloc type hmem _ content g.bufferSize
    (ParseLoop.start type data) _ hbs hint hlen.1
    (by have := hlen.2; simp only [ParseLoop.start]; omega) h
  simp only [] at m1 m2
  unfold ini_parse Machine.ini_parse
  simp only [ParseLoop.start] at h m1 ⊢
  rw [h, m1]
  generalize run_lines type _ _ = r
  cases r <;> exact ⟨_, rfl, rfl, m2⟩

theorem machine_read_line (realloc : Nat → Bool) (hmem : ∀ n, n ≤ INT_MAX → realloc n = true)
    (bs : Nat) (file : List Char) (hbs : 2 ≤ bs) (hint : bs ≤ INT_MAX) (hfile : file ≠ [])
    (hlen : (first_line file).1.length < 1073741824) :
    ∃ buf file1 bs1, bs ≤ bs1 ∧ bs1 ≤ INT_MAX ∧ fgets bs file = some (buf, file1) ∧
      Machine.ini_grow_buffer realloc (file1.length + 1) buf bs file1 =
        some (.done (first_line file).1 bs1 (first_line file).2) := by
  obtain ⟨buf, file1, bs1, hbs1, hfg, hgrow⟩ := read_line_spec bs file hbs hfile
  have hfg' := fgets_eq bs file hbs hfile
  rw [hfg'] at hfg
  injection hfg with hfg
  have hb : buf = (fgets_take (bs - 1) file).1 := by rw [hfg]
  have hf1 : file1 = (fgets_take (bs - 1) file).2 := by rw [hfg]
  have hinv : grow_inv buf bs file1 := by
    intro hl hrest
    rw [hb] at hl ⊢
    rw [hf1] at hrest ⊢
    have hk := fgets_take_full _ file hrest hl
    have hfl := congrArg (fun p => p.1.length) (fgets_take_no_newline _ file hl)
    simp only [List.length_append] at hfl
    constructor
    · omega
    · omega
  obtain ⟨g1, g2⟩ := machine_grow_buffer_eq realloc hmem _ buf bs file1 _ hint hinv hgrow
  exact ⟨buf, file1, bs1, hbs1, g2, by rw [hfg', hfg], g1⟩

theorem ParseOut.of_bufferSize (r : LineResult) (bs : Nat) :
    (ParseOut.of r bs).statics.bufferSize = bs := by
  cases r <;> rfl

/-- The loop "Increase buffer size" on a line without newline that has at least
2^30 characters, entered with a buffer size that doubles to 2^30: the doubling
of 2^30 overflows `int`. -/
theorem machine_grow_overflow (realloc : Nat → Bool)
    (hmem : ∀ n, n ≤ INT_MAX → realloc n = true) :
    ∀ (j fuel : Nat) (buf : List Char) (bs : Nat) (file : List Char),
      bs * 2 ^ j = 1073741824 → file.length < fuel → buf.length < bs → '\n' ∉ buf →
      '\n' ∉ file → 1073741824 ≤ buf.length + file.length →
      Machine.ini_grow_buffer realloc fuel buf bs file = some .overflow := by
  intro j
  induction j with
  | zero =>
    intro fuel buf bs file hj hf hb hnb _ htot
    obtain ⟨fuel, rfl⟩ : ∃ k, fuel = k + 1 := ⟨fuel - 1, by omega⟩
    have hfile : file ≠ [] := by
      intro h0
      rw [h0] at htot
      simp only [List.length_nil] at htot
      omega
    have hl : buf.getLast? ≠ some '\n' := fun h => hnb (List.mem_of_getLast?_eq_some h)
    unfold Machine.ini_grow_buffer
    rw [if_pos ⟨hl, hfile⟩, if_pos (by unfold INT_MAX; omega)]
  | succ j ih =>
    intro fuel buf bs file hj hf hb hnb hnf htot
    obtain ⟨fuel, rfl⟩ : ∃ k, fuel = k + 1 := ⟨fuel - 1, by omega⟩
    have hj2 : bs * 2 * 2 ^ j = 1073741824 := by rw [← hj, pow_succ]; ring
    have hle : bs * 2 ≤ 1073741824 := by
      rw [← hj2]
      exact Nat.le_mul_of_pos_right _ (Nat.two_pow_pos j)
    have hfile : file ≠ [] := by
      intro h0
      rw [h0] at htot
      simp only [List.length_nil] at htot
      omega
    have hl : buf.getLast? ≠ some '\n' := fun h => hnb (List.mem_of_getLast?_eq_some h)
    have hne := fgets_take_ne_nil (bs * 2 - buf.length - 1) file (by omega) hfile
    have hlen := fgets_take_length_le (bs * 2 - buf.length - 1) file
    have happ := fgets_take_append (bs * 2 - buf.length - 1) file
    have hlapp := congrArg List.length happ
    rw [List.length_append] at hlapp
    have hpos := List.length_pos.mpr hne
    unfold Machine.ini_grow_buffer
    rw [if_pos ⟨hl, hfile⟩, if_neg (by unfold INT_MAX; omega),
      if_neg (by rw [hmem (bs * 2) (by unfold INT_MAX; omega)]; simp),
      fgets_eq (bs * 2 - buf.length) file (by omega) hfile]
    simp only []
    refine ih fuel _ (bs * 2) _ hj2 (by omega) (by rw [List.length_append]; omega) ?_ ?_
      (by rw [List.length_append]; omega)
    · intro hm
      rcases List.mem_append.mp hm with hm | hm
      · exact hnb hm
      · exact hnf (by rw [← happ]; exact List.mem_append_left _ hm)
    · intro hm
      exact hnf (by rw [← happ]; exact List.mem_append_right _ hm)

/-- A file that is one line of `n` characters `x` with `n` at least 2^30, parsed
with the initial buffer size 256 and a `realloc` that never fails: the buffer
size is doubled up to 2^30 and the next doubling overflows `int`. -/
theorem machine_parse_overflow (realloc : Nat → Bool)
    (hmem : ∀ n, n ≤ INT_MAX → realloc n = true) (type : parse_type_t) (data : ini_data)
    (n : Nat) (hn : 1073741824 ≤ n) :
    Machine.ini_parse realloc (some (List.replicate n 'x')) type data Statics.initial =
      some .undefined := by
  have hx : '\n' ∉ List.replicate n 'x' := fun h =>
    absurd (List.eq_of_mem_replicate h) (by decide)
  have hne : List.replicate n 'x' ≠ [] := by
    intro h0
    have := congrArg List.length h0
    rw [List.length_replicate, List.length_nil] at this
    omega
  have happ := fgets_take_append 255 (List.replicate n 'x')
  have hlapp := congrArg List.length happ
  rw [List.length_append, List.length_replicate] at hlapp
  have hlen := fgets_take_length_le 255 (List.replicate n 'x')
  have hgrow := machine_grow_overflow realloc hmem 22
    ((fgets_take 255 (List.replicate n 'x')).2.length + 1)
    (fgets_take 255 (List.replicate n 'x')).1 256 (fgets_take 255 (List.replicate n 'x')).2
    (by norm_num) (by omega) (by omega)
    (fun hm => hx (by rw [← happ]; exact List.mem_append_left _ hm))
    (fun hm => hx (by rw [← happ]; exact List.mem_append_right _ hm)) (by omega)
  have hloop : Machine.ini_parse_loop realloc type ((List.replicate n 'x').length + 1)
      (List.replicate n 'x') 256 ⟨0, true, none,
        some (if type = .PARSE_DATA then ini_data.zero else data), []⟩ = some .overflow := by
    unfold Machine.ini_parse_loop
    rw [fgets_eq 256 _ (by omega) hne]
    simp only [Nat.add_one_sub_one, Nat.reduceSub, hgrow]
  unfold Machine.ini_parse
  simp only [Statics.initial, INI_BUFFER_LENGTH, hloop]

/-- A reader with an unbounded buffer on a file that is one line of `n + 1`
characters `x`: the line is not taken for a section line, the parse fails at
line 1 with `INI_ERROR_SECTION_START_ID`. -/
theorem unbounded_reader_long_line (type : parse_type_t) (data : ini_data) (n : Nat) :
    ∃ st, ini_parse_unbounded (List.replicate (n + 1) 'x') type data =
      .fail INI_ERROR_SECTION_START_ID st := by
  have hx : ∀ c ∈ List.replicate (n + 1) 'x', c = 'x' := fun c h => List.eq_of_mem_replicate h
  have hnl : '\n' ∉ List.replicate (n + 1) 'x' := fun h => absurd (hx _ h) (by decide)
  have hne : List.replicate (n + 1) 'x' ≠ [] := by simp [List.replicate_succ]
  have hhead : (List.replicate (n + 1) 'x').head? = some 'x' := by simp [List.replicate_succ]
  have h1 : ini_lstrip (List.replicate (n + 1) 'x') = List.replicate (n + 1) 'x' := by
    apply ini_lstrip_fixed
    intro c hc
    rw [hhead] at hc
    injection hc with hc
    rw [← hc]
    decide
  have h2 : ini_remove_comment (List.replicate (n + 1) 'x') = List.replicate (n + 1) 'x' := by
    rw [ini_remove_comment_eq, List.takeWhile_eq_self_iff]
    intro c hc
    rw [hx c hc]
    decide
  have h3 : ini_rstrip (List.replicate (n + 1) 'x') = List.replicate (n + 1) 'x' := by
    apply ini_rstrip_fixed
    intro c hc
    rw [hx c (List.mem_of_getLast?_eq_some hc)]
    decide
  have hnorm : normalised (List.replicate (n + 1) 'x') = List.replicate (n + 1) 'x' := by
    unfold normalised
    rw [h1, h2, h3]
  have hsec : ini_parse_section
      { ParseLoop.start type data with line := (ParseLoop.start type data).line + 1 }
      (List.replicate (n + 1) 'x') = .fail INI_ERROR_SECTION_START_ID
      { ParseLoop.start type data with line := (ParseLoop.start type data).line + 1 } := by
    unfold ini_parse_section
    rw [if_neg (by rw [hhead]; decide)]
  refine ⟨{ ParseLoop.start type data with line := (ParseLoop.start type data).line + 1 }, ?_⟩
  unfold ini_parse_unbounded
  rw [phys_lines_single _ hnl hne]
  simp only [run_lines, ini_parse_line_def, hnorm, if_neg hne]
  rw [if_pos (by rfl), hsec]

/-- C15 (amended): long lines are read whole as long as the buffer size stays
within `int`.  With a `realloc` that succeeds for every size up to `INT_MAX`:
for every buffer size from 2 to `INT_MAX` and every non-empty unread part of a
file whose first physical line has fewer than 2^30 characters, `fgets` followed
by the loop that doubles the buffer terminates without overflow and hands over
exactly that line (up to and including its newline, or up to the end of the
file), leaving the rest unread and a buffer size that is again at most
`INT_MAX`; so for every file whose lines all have fewer than 2^30 characters
and number at most `INT_MAX`, `ini_parse` returns and leaves what a reader with
an unbounded buffer leaves, but for the buffer size, and what `ini_parse` with
unbounded `int` leaves. -/
theorem C15_long_lines_read_whole_amended (realloc : Nat → Bool) (type : parse_type_t)
    (data : ini_data) (hmem : ∀ n, n ≤ INT_MAX → realloc n = true) :
    (∀ (bs : Nat) (file : List Char), 2 ≤ bs → bs ≤ INT_MAX → file ≠ [] →
      (first_line file).1.length < 1073741824 →
      ∃ buf file1 bs1, bs ≤ bs1 ∧ bs1 ≤ INT_MAX ∧ fgets bs file = some (buf, file1) ∧
        Machine.ini_grow_buffer realloc (file1.length + 1) buf bs file1 =
          some (.done (first_line file).1 bs1 (first_line file).2)) ∧
    (∀ file : List Char, ∃ l, '\n' ∉ l ∧
      ((file = l ++ '\n' :: (first_line file).2 ∧ (first_line file).1 = l ++ ['\n']) ∨
        (file = l ∧ first_line file = (l, [])))) ∧
    (∀ (content : List Char) (g : Statics), 2 ≤ g.bufferSize → g.bufferSize ≤ INT_MAX →
      within_int content →
      ∃ bs1, g.bufferSize ≤ bs1 ∧ bs1 ≤ INT_MAX ∧
        Machine.ini_parse realloc (some content) type data g =
          some (.returned (ParseOut.of (ini_parse_unbounded content type data) bs1)) ∧
        ini_parse (some content) type data g =
          some (ParseOut.of (ini_parse_unbounded content type data) bs1)) := by
  refine ⟨fun bs file hbs hint hfile hlen => machine_read_line realloc hmem bs file hbs hint
    hfile hlen, first_line_shape, ?_⟩
  intro content g hbs hint hlen
  obtain ⟨out, h1, h2, h3⟩ := machine_parse_eq realloc type data content g hmem hbs hint hlen
  obtain ⟨bs1, hbs1, h4⟩ := ini_parse_some content type data g hbs
  rw [h4] at h1
  injection h1 with h1
  subst h1
  rw [ParseOut.of_bufferSize] at h3
  exact ⟨bs1, hbs1, h3, h2, h4⟩

set_option maxRecDepth 100000 in
/-- C15 (amended) with a `realloc` that always succeeds: at a line of 12
characters read with a buffer of size 2, and at an entry whose value has 300
characters read with the initial buffer of size 256, which is doubled once. -/
theorem C15_witness :
    (∀ n, n ≤ INT_MAX → (fun _ : Nat => true) n = true) ∧
    (∃ buf file1 bs1, fgets 2 "key = value\nrest".toList = some (buf, file1) ∧
      Machine.ini_grow_buffer (fun _ => true) (file1.length + 1) buf 2 file1 =
        some (.done "key = value\n".toList bs1 "rest".toList)) ∧
    within_int ("[s]\nk=".toList ++ List.replicate 300 'v' ++ "\n".toList) ∧
    Machine.ini_parse (fun _ => true)
        (some ("[s]\nk=".toList ++ List.replicate 300 'v' ++ "\n".toList)) .PARSE_HANDLER
        ini_data.zero Statics.initial =
      some (.returned ⟨1, ⟨INI_NO_ERROR, -1, 512⟩, some ini_data.zero,
        [⟨some "s".toList, "k".toList, List.replicate 300 'v'⟩]⟩) := by
  have hw : within_int ("[s]\nk=".toList ++ List.replicate 300 'v' ++ "\n".toList) := by
    have hp : phys_lines ("[s]\nk=".toList ++ List.replicate 300 'v' ++ "\n".toList) =
        ["[s]\n".toList, "k=".toList ++ List.replicate 300 'v' ++ "\n".toList] := by rfl
    unfold within_int
    rw [hp]
    refine ⟨?_, by decide⟩
    intro l hl
    simp only [List.mem_cons, List.mem_singleton, List.not_mem_nil, or_false] at hl
    rcases hl with rfl | rfl
    · decide
    · decide
  refine ⟨fun _ _ => rfl, ?_, hw, ?_⟩
  · obtain ⟨buf, file1, bs1, _, _, h1, h2⟩ :=
      (C15_long_lines_read_whole_amended (fun _ => true) .PARSE_HANDLER ini_data.zero
        (fun _ _ => rfl)).1 2 "key = value\nrest".toList (by decide) (by decide) (by decide)
        (by decide)
    have h3 : first_line "key = value\nrest".toList = ("key = value\n".toList, "rest".toList) := by
      decide
    rw [h3] at h2
    exact ⟨buf, file1, bs1, h1, h2⟩
  · rfl

set_option maxRecDepth 100000 in
/-- C15 as first stated does not hold for lines of any length.  A file that is
one line of 2^30 characters `x`, parsed with the initial buffer size 256 and a
`realloc` that never fails, is one physical line, but the loop does not hand it
over: the buffer size is doubled from 256 up to 2^30, the line is not read to
its end, and the next `bufferSize *= 2` overflows `int`, while a reader with an
unbounded buffer accepts nothing and reports `INI_ERROR_SECTION_START_ID` at
line 1.  And when `realloc` fails, the loop gives up: on the file `[s]` followed
by an entry with a value of 300 characters `ini_parse` returns 0 at the first
doubling, with the error code and the error line as they were, while a reader
with an unbounded buffer accepts the entry. -/
theorem C15_counterexample :
    2 ≤ Statics.initial.bufferSize ∧
    phys_lines (List.replicate 1073741824 'x') = [List.replicate 1073741824 'x'] ∧
    Machine.ini_parse (fun _ => true) (some (List.replicate 1073741824 'x')) .PARSE_DATA
      ini_data.zero Statics.initial = some .undefined ∧
    (∃ st, ini_parse_unbounded (List.replicate 1073741824 'x') .PARSE_DATA ini_data.zero =
      .fail INI_ERROR_SECTION_START_ID st) ∧
    Machine.ini_parse (fun _ => false)
        (some ("[s]\nk=".toList ++ List.replicate 300 'v' ++ "\n".toList)) .PARSE_HANDLER
        ini_data.zero Statics.initial =
      some (.returned ⟨0, ⟨INI_NO_ERROR, -1, 512⟩, some ini_data.zero, []⟩) ∧
    (ParseOut.of (ini_parse_unbounded ("[s]\nk=".toList ++ List.replicate 300 'v' ++ "\n".toList)
        .PARSE_HANDLER ini_data.zero) 512).summary =
      (1, ⟨INI_NO_ERROR, -1, 512⟩, [⟨some "s".toList, "k".toList, List.replicate 300 'v'⟩]) := by
  have hx : '\n' ∉ List.replicate 1073741824 'x' := fun h =>
    absurd (List.eq_of_mem_replicate h) (by decide)
  have hne : List.replicate 1073741824 'x' ≠ [] := by
    intro h0
    have := congrArg List.length h0
    rw [List.length_replicate, List.length_nil] at this
    omega
  have hp := phys_lines_single (List.replicate 1073741824 'x') hx hne
  refine ⟨by decide, hp, machine_parse_overflow (fun _ => true) (fun _ _ => rfl) .PARSE_DATA
    ini_data.zero 1073741824 (le_refl _),
    unbounded_reader_long_line .PARSE_DATA ini_data.zero 1073741823, by rfl, by rfl⟩

/-! ## Sections of the entries -/

theorem ini_parse_section_next (st st1 : ParseLoop) (str : List Char)
    (h : ini_parse_section st str = .next st1) :
    str.head? = some '[' ∧
      st1 = { st with parsingSection := false, pszSection := some (ini_strip str.tail.dropLast) } := by
  unfold ini_parse_section at h
  simp only [INI_SECTION_PREFIX] at h
  split_ifs at h with h1 h2 h3
  · injection h with h
    exact ⟨h1, h.symm⟩

theorem ini_parse_section_fail (st st1 : ParseLoop) (str : List Char) (code : Int)
    (hhead : str.head? = some '[') (h : ini_parse_section st str = .fail code st1) :
    code ≠ INI_ERROR_SECTION_START_ID := by
  unfold ini_parse_section at h
  simp only [INI_SECTION_PREFIX] at h
  rw [if_pos hhead] at h
  split_ifs at h <;> injection h with h _ <;> rw [← h] <;> decide

theorem ini_parse_entry_result (type : parse_type_t) (st : ParseLoop) (str : List Char) :
    (∃ key value, ini_parse_entry type st str = dispatch_entry type st key value) ∨
      (ini_parse_entry type st str = .fail INI_ERROR_KEY_EMPTY st) ∨
      (ini_parse_entry type st str = .fail INI_ERROR_VALUE_EMPTY st) := by
  unfold ini_parse_entry
  split
  · exact Or.inr (Or.inl rfl)
  · split_ifs
    · exact Or.inr (Or.inl rfl)
    · split
      · exact Or.inr (Or.inr rfl)
      · split_ifs
        · exact Or.inr (Or.inr rfl)
        · exact Or.inl ⟨_, _, rfl⟩

theorem ini_add_entries_cons_bind (o : Option ini_data) (e : ini_entry) (es : List ini_entry) :
    Option.bind (Option.bind o (fun d => ini_add_entry d e)) (fun d => ini_add_entries d es) =
      Option.bind o (fun d => ini_add_entries d (e :: es)) := by
  cases o with
  | none => rfl
  | some d => simp [ini_add_entries]

/-- What a loop body that goes on to the next line has done: skipped a blank
line, taken a section line, or accepted an entry. -/
theorem ini_parse_line_next (type : parse_type_t) (st st2 : ParseLoop) (buf : List Char)
    (h : ini_parse_line type st buf = .next st2) :
    (normalised buf = [] ∧ st2 = st) ∨
    (normalised buf ≠ [] ∧ (normalised buf).head? = some '[' ∧
      st2 = { st with parsingSection := false,
                      pszSection := some (ini_strip (normalised buf).tail.dropLast) }) ∨
    (normalised buf ≠ [] ∧ (normalised buf).head? ≠ some '[' ∧ st.parsingSection = false ∧
      ∃ key value, dispatch_entry type st key value = .next st2) := by
  rw [ini_parse_line_def] at h
  by_cases hb : normalised buf = []
  · rw [if_pos hb] at h
    injection h with h
    exact Or.inl ⟨hb, h.symm⟩
  · rw [if_neg hb] at h
    by_cases hp : st.parsingSection = true
    · rw [if_pos hp] at h
      obtain ⟨h1, h2⟩ := ini_parse_section_next st st2 _ h
      exact Or.inr (Or.inl ⟨hb, h1, h2⟩)
    · rw [if_neg hp] at h
      by_cases hh : (normalised buf).head? = some INI_SECTION_PREFIX
      · rw [if_pos hh] at h
        obtain ⟨h1, h2⟩ := ini_parse_section_next _ st2 _ h
        exact Or.inr (Or.inl ⟨hb, h1, h2⟩)
      · rw [if_neg hh] at h
        refine Or.inr (Or.inr ⟨hb, hh, by simpa using hp, ?_⟩)
        rcases ini_parse_entry_result type st (normalised buf) with ⟨key, value, he⟩ | he | he
        · exact ⟨key, value, by rw [← he, h]⟩
        · rw [he] at h; cases h
        · rw [he] at h; cases h

/-- A run of the loop body that does not fail: the entries it accepts, in order,
carry the name of the closest section line above them; with `PARSE_HANDLER` they
are reported to the handler, with `PARSE_DATA` they are inserted in the table. -/
theorem run_lines_entries (type : parse_type_t) (lines : List (List Char)) :
    ∀ st st1 : ParseLoop, (st.parsingSection = true ∨ st.pszSection ≠ none) →
      run_lines type st lines = .next st1 →
      ∃ es : List ini_entry,
        nearest_sections st.pszSection lines = es.map (fun e => some e.«section») ∧
        (type = .PARSE_HANDLER →
          st1.calls = st.calls ++ es.map ini_entry.call ∧ st1.data = st.data) ∧
        (type = .PARSE_DATA →
          st1.data = Option.bind st.data (fun d => ini_add_entries d es) ∧
            st1.calls = st.calls) := by
  induction lines with
  | nil =>
    intro st st1 _ h
    simp only [run_lines] at h
    injection h with h
    subst h
    refine ⟨[], rfl, fun _ => ⟨by simp, rfl⟩, fun _ => ⟨?_, rfl⟩⟩
    cases st.data <;> simp [ini_add_entries]
  | cons buf rest ih =>
    intro st st1 hinv h
    simp only [run_lines] at h
    cases hline : ini_parse_line type { st with line := st.line + 1 } buf with
    | fail code st2 => rw [hline] at h; cases h
    | next st2 =>
      simp only [hline] at h
      rcases ini_parse_line_next type _ st2 buf hline with
        ⟨hb, hst2⟩ | ⟨hb, hh, hst2⟩ | ⟨hb, hh, hp, key, value, hd⟩
      · subst hst2
        obtain ⟨es, h1, h2, h3⟩ := ih { st with line := st.line + 1 } st1 hinv h
        exact ⟨es, by simpa [nearest_sections, hb] using h1, h2, h3⟩
      · subst hst2
        obtain ⟨es, h1, h2, h3⟩ := ih _ st1 (Or.inr (by simp)) h
        exact ⟨es, by simpa [nearest_sections, hb, hh] using h1, h2, h3⟩
      · obtain ⟨sec, hsec⟩ : ∃ sec, st.pszSection = some sec := by
          rcases hinv with hinv | hinv
          · rw [hinv] at hp; cases hp
          · exact Option.ne_none_iff_exists'.mp hinv
        cases type with
        | PARSE_HANDLER =>
          simp only [dispatch_entry, hsec] at hd
          injection hd with hd
          subst hd
          obtain ⟨es, h1, h2, _⟩ := ih _ st1 (Or.inr (by simp [hsec])) h
          refine ⟨⟨key, value, sec⟩ :: es, ?_, ?_, ?_⟩
          · simpa [nearest_sections, hb, hh, hsec] using h1
          · intro _
            obtain ⟨h3, h4⟩ := h2 rfl
            exact ⟨by rw [h3]; simp [ini_entry.call], h4⟩
          · intro ht
            exact absurd ht (by decide)
        | PARSE_DATA =>
          simp only [dispatch_entry, hsec] at hd
          injection hd with hd
          subst hd
          obtain ⟨es, h1, _, h2⟩ := ih _ st1 (Or.inr (by simp [hsec])) h
          refine ⟨⟨key, value, sec⟩ :: es, ?_, ?_, ?_⟩
          · simpa [nearest_sections, hb, hh, hsec] using h1
          · intro ht
            exact absurd ht (by decide)
          · intro _
            obtain ⟨h3, h4⟩ := h2 rfl
            exact ⟨by rw [h3]; exact ini_add_entries_cons_bind _ _ _, h4⟩

theorem ini_parse_section_st (st : ParseLoop) (str : List Char) :
    (ini_parse_section st str).st.calls = st.calls ∧ (ini_parse_section st str).st.data = st.data := by
  unfold ini_parse_section
  simp only []
  split_ifs <;> exact ⟨rfl, rfl⟩

theorem dispatch_entry_parsingSection (type : parse_type_t) (st st2 : ParseLoop)
    (key value : List Char) (h : dispatch_entry type st key value = .next st2) :
    st2.parsingSection = st.parsingSection := by
  unfold dispatch_entry at h
  cases type with
  | PARSE_DATA =>
    simp only [] at h
    split at h <;> injection h with h <;> subst h <;> rfl
  | PARSE_HANDLER =>
    simp only [] at h
    injection h with h
    subst h
    rfl

theorem ini_parse_line_fail_code (type : parse_type_t) (st st2 : ParseLoop) (buf : List Char)
    (code : Int) (hp : st.parsingSection = false) (h : ini_parse_line type st buf = .fail code st2) :
    code ≠ INI_ERROR_SECTION_START_ID := by
  rw [ini_parse_line_def] at h
  by_cases hb : normalised buf = []
  · rw [if_pos hb] at h; cases h
  · rw [if_neg hb, hp, if_neg (by decide)] at h
    by_cases hh : (normalised buf).head? = some INI_SECTION_PREFIX
    · rw [if_pos hh] at h
      exact ini_parse_section_fail _ st2 _ code hh h
    · rw [if_neg hh] at h
      rcases ini_parse_entry_result type st (normalised buf) with ⟨key, value, he⟩ | he | he
      · rw [he] at h
        unfold dispatch_entry at h
        cases type with
        | PARSE_DATA =>
          simp only [] at h
          split at h <;> cases h
        | PARSE_HANDLER => cases h
      · rw [he] at h
        injection h with h _
        rw [← h]; decide
      · rw [he] at h
        injection h with h _
        rw [← h]; decide

theorem run_lines_no_start_id (type : parse_type_t) (lines : List (List Char)) :
    ∀ st st1 : ParseLoop, st.parsingSection = false →
      run_lines type st lines ≠ .fail INI_ERROR_SECTION_START_ID st1 := by
  induction lines with
  | nil => intro st st1 _ h; simp [run_lines] at h
  | cons buf rest ih =>
    intro st st1 hp h
    simp only [run_lines] at h
    cases hline : ini_parse_line type { st with line := st.line + 1 } buf with
    | fail code st2 =>
      simp only [hline] at h
      injection h with h1 _
      exact ini_parse_line_fail_code type { st with line := st.line + 1 } st2 buf code hp hline h1
    | next st2 =>
      simp only [hline] at h
      have hp2 : st2.parsingSection = false := by
        rcases ini_parse_line_next type _ st2 buf hline with
          ⟨_, hst2⟩ | ⟨_, _, hst2⟩ | ⟨_, _, _, key, value, hd⟩
        · rw [hst2]; exact hp
        · rw [hst2]
        · rw [dispatch_entry_parsingSection type _ st2 key value hd]; exact hp
      exact ih st2 st1 hp2 h

/-- C16: entries carry the nearest preceding section.  (1) When the parse of a
file returns 1, the accepted entries, in file order, carry the stripped name of
the closest section line above them; they are the handler calls with
`PARSE_HANDLER` and the inserts into the zeroed table with `PARSE_DATA`.  (2) A
line starting with `[` met while entries are expected is handled by the section
code and stores or reports nothing.  (3) A section line is accepted whatever
the parser expects, so two in a row are.  (4) Once entries are expected no run
fails with `INI_ERROR_SECTION_START_ID`. -/
theorem C16_entries_carry_section (type : parse_type_t) :
    (∀ (content : List Char) (data : ini_data) (g : Statics), 2 ≤ g.bufferSize →
      ∃ out, ini_parse (some content) type data g = some out ∧
        (out.ret = 1 → ∃ es : List ini_entry,
          nearest_sections none (phys_lines content) = es.map (fun e => some e.«section») ∧
          (type = .PARSE_HANDLER → out.calls = es.map ini_entry.call) ∧
          (type = .PARSE_DATA → out.data = ini_add_entries ini_data.zero es))) ∧
    (∀ (st : ParseLoop) (buf : List Char), st.parsingSection = false →
      (normalised buf).head? = some '[' →
      ini_parse_line type st buf =
          ini_parse_section { st with parsingSection := true } (normalised buf) ∧
        (ini_parse_line type st buf).st.calls = st.calls ∧
        (ini_parse_line type st buf).st.data = st.data) ∧
    (∀ (st : ParseLoop) (buf inner : List Char), normalised buf = '[' :: (inner ++ [']']) →
      ini_strip inner ≠ [] →
      ini_parse_line type st buf =
        .next { st with parsingSection := false, pszSection := some (ini_strip inner) }) ∧
    (∀ (st st1 : ParseLoop) (lines : List (List Char)), st.parsingSection = false →
      run_lines type st lines ≠ .fail INI_ERROR_SECTION_START_ID st1) := by
  refine ⟨?_, ?_, ?_, fun st st1 lines hp => run_lines_no_start_id type lines st st1 hp⟩
  · intro content data g hbs
    obtain ⟨bs, _, hout⟩ := ini_parse_some content type data g hbs
    refine ⟨_, hout, ?_⟩
    intro hret
    cases hrun : run_lines type (ParseLoop.start type data) (phys_lines content) with
    | fail code st1 =>
      rw [hrun] at hret
      exact absurd hret (by simp [ParseOut.of])
    | next st1 =>
      obtain ⟨es, h1, h2, h3⟩ := run_lines_entries type _ _ st1 (Or.inl rfl) hrun
      refine ⟨es, h1, ?_, ?_⟩
      · intro ht
        have := (h2 ht).1
        simpa [ParseOut.of, ParseLoop.start] using this
      · intro ht
        have := (h3 ht).1
        simpa [ParseOut.of, ParseLoop.start, ht] using this
  · intro st buf hp hh
    have hb : normalised buf ≠ [] := by
      intro h0
      rw [h0] at hh
      cases hh
    have hl := ini_parse_line_section_branch type st buf hb (Or.inr hh)
    rw [hp, if_neg (by decide)] at hl
    rw [hl]
    exact ⟨rfl, ini_parse_section_st _ _⟩
  · intro st buf inner hn hi
    have hb : normalised buf ≠ [] := by rw [hn]; simp
    have hh : (normalised buf).head? = some INI_SECTION_PREFIX := by rw [hn]; rfl
    rw [ini_parse_line_section_branch type st buf hb (Or.inr hh), hn]
    split_ifs with hp
    · rw [ini_parse_section_brackets, if_pos hi]
    · rw [ini_parse_section_brackets, if_pos hi]

/-- C16 at a file with an empty section, a padded section name and two entries. -/
theorem C16_witness :
    (∃ out, ini_parse (some "[a]\n[ b c ]\nk=1\n\nj=2\n[d]\ni=3".toList) .PARSE_HANDLER
        ini_data.zero Statics.initial = some out ∧ out.ret = 1 ∧
      out.calls = [⟨some "b c".toList, "k".toList, "1".toList⟩,
        ⟨some "b c".toList, "j".toList, "2".toList⟩, ⟨some "d".toList, "i".toList, "3".toList⟩] ∧
      ∃ es : List ini_entry,
        nearest_sections none (phys_lines "[a]\n[ b c ]\nk=1\n\nj=2\n[d]\ni=3".toList) =
          es.map (fun e => some e.«section») ∧ out.calls = es.map ini_entry.call) ∧
    nearest_sections none (phys_lines "[a]\n[ b c ]\nk=1\n\nj=2\n[d]\ni=3".toList) =
      [some "b c".toList, some "b c".toList, some "d".toList] := by
  refine ⟨?_, by decide⟩
  obtain ⟨out, h1, h2⟩ := (C16_entries_carry_section .PARSE_HANDLER).1
    "[a]\n[ b c ]\nk=1\n\nj=2\n[d]\ni=3".toList ini_data.zero Statics.initial (by decide)
  have h3 : ini_parse (some "[a]\n[ b c ]\nk=1\n\nj=2\n[d]\ni=3".toList) .PARSE_HANDLER
      ini_data.zero Statics.initial = some ⟨1, ⟨INI_NO_ERROR, -1, 256⟩, some ini_data.zero,
        [⟨some "b c".toList, "k".toList, "1".toList⟩,
          ⟨some "b c".toList, "j".toList, "2".toList⟩,
          ⟨some "d".toList, "i".toList, "3".toList⟩]⟩ := by rfl
  rw [h3] at h1
  injection h1 with h1
  subst h1
  obtain ⟨es, h4, h5, _⟩ := h2 rfl
  exact ⟨_, h3, rfl, rfl, es, h4, h5 rfl⟩

/-! ## The two parse modes side by side -/

theorem ini_parse_entry_eq (type : parse_type_t) (st : ParseLoop) (str : List Char) :
    ini_parse_entry type st str =
      match split_entry str with
      | some (key, value) => dispatch_entry type st key value
      | none => .fail (split_error str) st := by
  unfold ini_parse_entry split_entry split_error dispatch_entry
  rcases h1 : strtok str INI_PARAMETER_DELIMITER with ⟨_ | key, save⟩
  · rfl
  · simp only []
    by_cases hk : key = []
    · simp only [hk, if_true]
    · simp only [hk, if_false]
      rcases h2 : strtok save INI_PARAMETER_DELIMITER with ⟨_ | value, save2⟩
      · rfl
      · simp only []
        by_cases hv : value = []
        · simp only [hv, if_true]
        · simp only [hv, if_false]

theorem dispatch_entry_outline (type : parse_type_t) (st : ParseLoop) (key value : List Char) :
    (dispatch_entry type st key value).outline =
      (none, st.line, st.parsingSection, st.pszSection) := by
  unfold dispatch_entry
  cases type with
  | PARSE_DATA =>
    simp only []
    split <;> rfl
  | PARSE_HANDLER => rfl

theorem ini_parse_line_fail_st (type : parse_type_t) (st st1 : ParseLoop) (buf : List Char)
    (code : Int) (h : ini_parse_line type st buf = .fail code st1) :
    st1.calls = st.calls ∧ st1.data = st.data ∧ st1.line = st.line := by
  have hl := ini_parse_line_st_line type st buf
  rw [h] at hl
  refine ⟨?_, ?_, hl⟩
  all_goals
    rw [ini_parse_line_def] at h
    split_ifs at h
    · have := ini_parse_section_st st (normalised buf)
      rw [h] at this
      first | exact this.1 | exact this.2
    · have := ini_parse_section_st { st with parsingSection := true } (normalised buf)
      rw [h] at this
      first | exact this.1 | exact this.2
    · rw [ini_parse_entry_eq] at h
      cases hs : split_entry (normalised buf) with
      | none =>
        rw [hs] at h
        injection h with _ h
        rw [← h]
      | some kv =>
        rw [hs] at h
        have := dispatch_entry_outline type st kv.1 kv.2
        simp only [] at h
        rw [h] at this
        simp [LineResult.outline] at this

theorem insert_calls_append (o : Option ini_data) (l1 l2 : List HandlerCall) :
    insert_calls o (l1 ++ l2) = insert_calls (insert_calls o l1) l2 := by
  unfold insert_calls
  rw [List.foldl_append]

theorem insert_calls_cons (o : Option ini_data) (c : HandlerCall) (l : List HandlerCall) :
    insert_calls o (c :: l) =
      insert_calls (Option.bind o (fun d =>
        Option.bind c.pszSection (fun sec => ini_add_entry d ⟨c.pszKey, c.pszValue, sec⟩))) l := rfl

theorem insert_calls_entries (o : Option ini_data) (es : List ini_entry) :
    insert_calls o (es.map ini_entry.call) = Option.bind o (fun d => ini_add_entries d es) := by
  induction es generalizing o with
  | nil => cases o <;> rfl
  | cons e es ih =>
    rw [List.map_cons, insert_calls_cons, ih, ← ini_add_entries_cons_bind]
    rfl

/-- What a loop body that goes on to the next line has done: skipped a blank
line, taken a section line, or accepted the entry that `split_entry` yields. -/
theorem ini_parse_line_next_split (type : parse_type_t) (st st2 : ParseLoop) (buf : List Char)
    (h : ini_parse_line type st buf = .next st2) :
    (normalised buf = [] ∧ st2 = st) ∨
    (normalised buf ≠ [] ∧ (normalised buf).head? = some INI_SECTION_PREFIX ∧
      st2 = { st with parsingSection := false,
                      pszSection := some (ini_strip (normalised buf).tail.dropLast) }) ∨
    (normalised buf ≠ [] ∧ (normalised buf).head? ≠ some INI_SECTION_PREFIX ∧
      st.parsingSection = false ∧
      ∃ key value, split_entry (normalised buf) = some (key, value) ∧
        dispatch_entry type st key value = .next st2) := by
  rw [ini_parse_line_def] at h
  by_cases hb : normalised buf = []
  · rw [if_pos hb] at h
    injection h with h
    exact Or.inl ⟨hb, h.symm⟩
  · rw [if_neg hb] at h
    by_cases hp : st.parsingSection = true
    · rw [if_pos hp] at h
      obtain ⟨h1, h2⟩ := ini_parse_section_next st st2 _ h
      exact Or.inr (Or.inl ⟨hb, h1, h2⟩)
    · rw [if_neg hp] at h
      by_cases hh : (normalised buf).head? = some INI_SECTION_PREFIX
      · rw [if_pos hh] at h
        obtain ⟨h1, h2⟩ := ini_parse_section_next _ st2 _ h
        exact Or.inr (Or.inl ⟨hb, h1, h2⟩)
      · rw [if_neg hh, ini_parse_entry_eq] at h
        refine Or.inr (Or.inr ⟨hb, hh, by simpa using hp, ?_⟩)
        cases hs : split_entry (normalised buf) with
        | none => rw [hs] at h; cases h
        | some kv =>
          rw [hs] at h
          exact ⟨kv.1, kv.2, rfl, h⟩

theorem dispatch_entry_next (type : parse_type_t) (st st2 : ParseLoop) (key value : List Char)
    (h : dispatch_entry type st key value = .next st2) :
    st2.pszSection = st.pszSection ∧ st2.parsingSection = st.parsingSection ∧
    (type = .PARSE_HANDLER →
      st2.calls = st.calls ++ [⟨st.pszSection, key, value⟩] ∧ st2.data = st.data) ∧
    (type = .PARSE_DATA →
      st2.data = insert_calls st.data [⟨st.pszSection, key, value⟩] ∧ st2.calls = st.calls) := by
  unfold dispatch_entry at h
  cases type with
  | PARSE_HANDLER =>
    simp only [] at h
    injection h with h
    subst h
    exact ⟨rfl, rfl, fun _ => ⟨rfl, rfl⟩, fun ht => absurd ht (by decide)⟩
  | PARSE_DATA =>
    simp only [] at h
    cases hs : st.pszSection with
    | none =>
      simp only [hs] at h
      injection h with h
      subst h
      refine ⟨rfl, rfl, fun ht => absurd ht (by decide), fun _ => ⟨?_, rfl⟩⟩
      simp only [insert_calls, List.foldl]
      cases st.data <;> rfl
    | some sec =>
      simp only [hs] at h
      injection h with h
      subst h
      exact ⟨rfl, rfl, fun ht => absurd ht (by decide), fun _ => ⟨rfl, rfl⟩⟩

/-- A run of the loop body that does not fail: with `PARSE_HANDLER` the handler
has been called with `entry_calls` of the lines, in order, and the table is
untouched; with `PARSE_DATA` the arguments of those calls have been inserted in
the table, in order, and the handler has not been called. -/
theorem run_lines_calls (type : parse_type_t) (lines : List (List Char)) :
    ∀ st st1 : ParseLoop, run_lines type st lines = .next st1 →
      (type = .PARSE_HANDLER →
        st1.calls = st.calls ++ entry_calls st.pszSection lines ∧ st1.data = st.data) ∧
      (type = .PARSE_DATA →
        st1.data = insert_calls st.data (entry_calls st.pszSection lines) ∧
          st1.calls = st.calls) := by
  induction lines with
  | nil =>
    intro st st1 h
    simp only [run_lines] at h
    injection h with h
    subst h
    exact ⟨fun _ => ⟨by simp [entry_calls], rfl⟩, fun _ => ⟨rfl, rfl⟩⟩
  | cons buf rest ih =>
    intro st st1 h
    simp only [run_lines] at h
    cases hline : ini_parse_line type { st with line := st.line + 1 } buf with
    | fail code st2 => rw [hline] at h; cases h
    | next st2 =>
      simp only [hline] at h
      obtain ⟨ih1, ih2⟩ := ih st2 st1 h
      rcases ini_parse_line_next_split type _ st2 buf hline with
        ⟨hb, hst2⟩ | ⟨hb, hh, hst2⟩ | ⟨hb, hh, hp, key, value, hs, hd⟩
      · subst hst2
        simp only [entry_calls, hb, if_true]
        exact ⟨ih1, ih2⟩
      · subst hst2
        simp only [entry_calls, hb, hh, if_true, if_false]
        exact ⟨ih1, ih2⟩
      · obtain ⟨d1, _, d3, d4⟩ := dispatch_entry_next type _ st2 key value hd
        simp only [entry_calls, hb, hh, hs, if_false]
        simp only [] at d1 d3 d4
        rw [d1] at ih1 ih2
        constructor
        · intro ht
          obtain ⟨a, b⟩ := ih1 ht
          obtain ⟨c, d⟩ := d3 ht
          rw [a, b, c, d]
          exact ⟨by simp, rfl⟩
        · intro ht
          obtain ⟨a, b⟩ := ih2 ht
          obtain ⟨c, d⟩ := d4 ht
          rw [a, b, c, d, insert_calls_cons]
          exact ⟨rfl, rfl⟩

/-- In a run of the loop body that does not fail every entry line is accepted:
there are as many calls as entry lines, and when the run starts before the
first section line or with a section name, every call carries a section name. -/
theorem run_lines_entry_lines (type : parse_type_t) (lines : List (List Char)) :
    ∀ st st1 : ParseLoop, run_lines type st lines = .next st1 →
      (entry_calls st.pszSection lines).length = (lines.filter is_entry_line).length ∧
      ((st.parsingSection = true ∨ st.pszSection ≠ none) →
        ∃ es : List ini_entry, entry_calls st.pszSection lines = es.map ini_entry.call) := by
  induction lines with
  | nil =>
    intro st st1 _
    exact ⟨rfl, fun _ => ⟨[], rfl⟩⟩
  | cons buf rest ih =>
    intro st st1 h
    simp only [run_lines] at h
    cases hline : ini_parse_line type { st with line := st.line + 1 } buf with
    | fail code st2 => rw [hline] at h; cases h
    | next st2 =>
      simp only [hline] at h
      obtain ⟨ih1, ih2⟩ := ih st2 st1 h
      rcases ini_parse_line_next_split type _ st2 buf hline with
        ⟨hb, hst2⟩ | ⟨hb, hh, hst2⟩ | ⟨hb, hh, hp, key, value, hs, hd⟩
      · subst hst2
        simp only [entry_calls, hb, if_true]
        refine ⟨?_, ih2⟩
        rw [ih1, List.filter_cons_of_neg (by simp [is_entry_line, hb])]
      · subst hst2
        simp only [entry_calls, hb, hh, if_true, if_false]
        refine ⟨?_, fun _ => ih2 (Or.inr (by simp))⟩
        rw [ih1, List.filter_cons_of_neg (by simp [is_entry_line, hh])]
      · obtain ⟨d1, d2, _, _⟩ := dispatch_entry_next type _ st2 key value hd
        simp only [entry_calls, hb, hh, hs, if_false]
        simp only [] at d1 d2 hp
        rw [d1] at ih1 ih2
        constructor
        · rw [List.filter_cons_of_pos (by simp [is_entry_line, hb, hh]), List.length_cons,
            List.length_cons, ih1]
        · intro hinv
          obtain ⟨sec, hsec⟩ : ∃ sec, st.pszSection = some sec := by
            rcases hinv with hinv | hinv
            · rw [hinv] at hp; cases hp
            · exact Option.ne_none_iff_exists'.mp hinv
          obtain ⟨es, hes⟩ := ih2 (Or.inr (by rw [hsec]; simp))
          exact ⟨⟨key, value, sec⟩ :: es, by rw [hes, hsec]; rfl⟩

/-- A failed parse into a table: when line `n` is the first offending line, the
table is the zeroed table with the entries of the entry lines before line `n`
inserted in order, whatever it held before the call; the handler is not called.
When the bucket indices of their keys are in range every inserted entry is
found: `ini_read_data` with the C-string tag, for a key with bucket index in
range, answers the value written last for the pair among lines `1..n-1`, and 0
for a pair not written there. -/
theorem failed_parse_store (libc : Libc) (content : List Char) (data : ini_data) (g : Statics)
    (n : Nat) (code : Int) (hbs : 2 ≤ g.bufferSize)
    (h : first_offending_line .PARSE_DATA data content n code) :
    ∃ out es, ini_parse_data (some content) data g = some out ∧ out.ret = 0 ∧ out.calls = [] ∧
      entry_calls none ((phys_lines content).take (n - 1)) = es.map ini_entry.call ∧
      es.length = (((phys_lines content).take (n - 1)).filter is_entry_line).length ∧
      out.data = ini_add_entries ini_data.zero es ∧
      ((∀ e ∈ es, bucket_ok e.key) → ∃ d, out.data = some d ∧
        ∀ (sec key : List Char) (dt : ini_datatype), bucket_ok key →
          ini_read_data libc d sec key dt INI_FIELD_CSTRING =
            match last_value sec key es with
            | none => some (0, dt)
            | some v => some (1, { dt with u := .m_pszString v })) := by
  obtain ⟨bs, _, hout⟩ := ini_parse_some content .PARSE_DATA data g hbs
  obtain ⟨m, st, st1, buf, rfl, h1, h2, h3⟩ := h
  have hrun := (run_lines_fail_iff .PARSE_DATA _ _ _ _).mpr ⟨m, st, buf, h1, h2, h3⟩
  rw [hrun] at hout
  obtain ⟨f1, f2, _⟩ := ini_parse_line_fail_st .PARSE_DATA _ st1 buf code h3
  obtain ⟨c1, c2⟩ := (run_lines_calls .PARSE_DATA _ _ _ h2).2 rfl
  obtain ⟨c3, c4⟩ := run_lines_entry_lines .PARSE_DATA _ _ _ h2
  obtain ⟨es, hes⟩ := c4 (Or.inl rfl)
  have s1 : (ParseLoop.start .PARSE_DATA data).data = some ini_data.zero := rfl
  have s2 : (ParseLoop.start .PARSE_DATA data).calls = [] := rfl
  have s3 : (ParseLoop.start .PARSE_DATA data).pszSection = none := rfl
  rw [s3] at hes c3 c1
  rw [s1, hes, insert_calls_entries] at c1
  rw [hes, List.length_map] at c3
  simp only [] at f1 f2
  have hdata : st1.data = ini_add_entries ini_data.zero es := by rw [f2, c1]; rfl
  refine ⟨_, es, hout, rfl, ?_, ?_, ?_, hdata, ?_⟩
  · show st1.calls = []
    rw [f1, c2, s2]
  · simpa using hes
  · simpa using c3
  · intro hok
    have hd0 := ini_add_entries_ok es ini_data.zero hok
    refine ⟨_, hdata.trans hd0, ?_⟩
    intro sec key dt hk
    obtain ⟨d1, hd1, hr⟩ :=
      ini_read_data_after_inserts libc es sec key dt INI_FIELD_CSTRING hok hk
    rw [hd0] at hd1
    injection hd1 with hd1
    rw [hd1, hr, ini_find_value_reverse]
    cases last_value sec key es with
    | none => rfl
    | some v => simp only [ini_read_string_cstring]

/-- C22: the table after a failed parse is not defined for every file.  In the
file `[s]`, `é=v`, `k=` (the key of line 2 is the characters C3 A9, bucket index
-20) line 3 is the first offending line and `ini_parse_data` returns 0 with
`INI_ERROR_VALUE_EMPTY` at line 3, but the insert of line 2 wrote to
`entries[-20]`, outside the table: the table does not hold the entry of line 2.
In the file `[s]`, `k=v`, `j=`, `z=1`, whose keys are in range, the table after
the failure at line 3 is the zeroed table with the entry of line 2 alone,
whatever it held before: `(s, k)` is found with value `v`, `(s, z)` is not
found. -/
theorem C22_failed_parse_store_out_of_range (libc : Libc) (data : ini_data) (dt : ini_datatype) :
    first_offending_line .PARSE_DATA data "[s]\n\xc3\xa9=v\nk=\n".toList 3 INI_ERROR_VALUE_EMPTY ∧
    (ini_parse_data (some "[s]\n\xc3\xa9=v\nk=\n".toList) data Statics.initial).map
        ParseOut.summary = some (0, ⟨INI_ERROR_VALUE_EMPTY, 3, 256⟩, []) ∧
    (ini_parse_data (some "[s]\n\xc3\xa9=v\nk=\n".toList) data Statics.initial).bind
        (fun out => out.data) = none ∧
    ini_bucket "\xc3\xa9".toList = -20 ∧
    entry_calls none ((phys_lines "[s]\n\xc3\xa9=v\nk=\n".toList).take 2) =
      [⟨some "s".toList, "\xc3\xa9".toList, "v".toList⟩] ∧
    (ini_parse_data (some "[s]\nk=v\nj=\nz=1\n".toList) data Statics.initial).map
        ParseOut.summary = some (0, ⟨INI_ERROR_VALUE_EMPTY, 3, 256⟩, []) ∧
    ∃ d, (ini_parse_data (some "[s]\nk=v\nj=\nz=1\n".toList) data Statics.initial).bind
        (fun out => out.data) = some d ∧
      (∀ j, d.entries j =
        if j = slot "k".toList then [⟨"k".toList, "v".toList, "s".toList⟩] else []) ∧
      ini_read_data libc d "s".toList "k".toList dt INI_FIELD_CSTRING =
        some (1, { dt with u := .m_pszString "v".toList }) ∧
      ini_read_data libc d "s".toList "z".toList dt INI_FIELD_CSTRING = some (0, dt) := by
  refine ⟨⟨2, ⟨2, false, some "s".toList, none, []⟩, ⟨3, false, some "s".toList, none, []⟩,
      "k=\n".toList, rfl, by decide, by rfl, by rfl⟩, by rfl, by rfl, by decide, by decide, by rfl,
    ⟨⟨fun j => if j = slot "k".toList then [⟨"k".toList, "v".toList, "s".toList⟩] else []⟩,
      ?_, fun _ => rfl, by rfl, by rfl⟩⟩
  rfl

end IniParser
